import Mathlib

/-!
Formal model of the reactive collection-binding core (`DataItemsBinding`) and
of the histogram mouse-interaction logic (`HistogramPanel.HistogramCanvasItem`)
of this repository, together with theorems settling the specification claims.

The binding implementation itself is not among the provided source files (only
its test suite is), so the binding layer is modelled from the specification:
items are identity-bearing (represented by natural-number ids), item contents
live in an environment `env : Nat → C`, a binding keeps `master_items` (the
unfiltered source ordering) and `ordered_items` (the materialized filtered,
sorted projection), and the projection is maintained incrementally: an ordered
insert against the sort comparator with ties broken by source order, exactly as
the specification describes.
-/

namespace NionSwift

/-! ### Stable ordered insertion and insertion sort

`sInsert le x l` places `x` before the first element `y` of `l` with
`le x y = true`; `sSort` is the induced insertion sort.  The binding's
comparator breaks key ties by master (source) position, so on the lists the
binding actually sorts the comparator is antisymmetric and the sorted
permutation is unique. -/

def sInsert (le : Nat → Nat → Bool) (x : Nat) : List Nat → List Nat
  | [] => [x]
  | y :: ys => if le x y then x :: y :: ys else y :: sInsert le x ys

def sSort (le : Nat → Nat → Bool) : List Nat → List Nat
  | [] => []
  | x :: xs => sInsert le x (sSort le xs)

theorem sInsert_perm (le : Nat → Nat → Bool) (x : Nat) (l : List Nat) :
    List.Perm (sInsert le x l) (x :: l) := by
  induction l with
  | nil => simp [sInsert]
  | cons y ys ih =>
    by_cases h : le x y = true
    · simp [sInsert, h]
    · simp only [sInsert, h, if_false]
      exact (ih.cons y).trans (List.Perm.swap x y ys)

theorem sSort_perm (le : Nat → Nat → Bool) (l : List Nat) : List.Perm (sSort le l) l := by
  induction l with
  | nil => exact List.Perm.refl _
  | cons x xs ih => exact (sInsert_perm le x (sSort le xs)).trans (ih.cons x)

theorem mem_sInsert {le : Nat → Nat → Bool} {x z : Nat} {l : List Nat} :
    z ∈ sInsert le x l ↔ z = x ∨ z ∈ l := by
  rw [(sInsert_perm le x l).mem_iff, List.mem_cons]

theorem mem_sSort {le : Nat → Nat → Bool} {z : Nat} {l : List Nat} :
    z ∈ sSort le l ↔ z ∈ l := (sSort_perm le l).mem_iff

theorem sInsert_pairwise {le : Nat → Nat → Bool} {x : Nat} {l : List Nat}
    (htot : ∀ a b, le a b = true ∨ le b a = true)
    (htrans : ∀ a b c, le a b = true → le b c = true → le a c = true)
    (hl : l.Pairwise (fun a b => le a b = true)) :
    (sInsert le x l).Pairwise (fun a b => le a b = true) := by
  induction l with
  | nil => simp [sInsert]
  | cons y ys ih =>
    rcases List.pairwise_cons.mp hl with ⟨hy, hys⟩
    by_cases h : le x y = true
    · rw [sInsert, if_pos h]
      refine List.pairwise_cons.mpr ⟨?_, hl⟩
      intro z hz
      rcases List.mem_cons.mp hz with rfl | hz
      · exact h
      · exact htrans x y z h (hy z hz)
    · rw [sInsert, if_neg h]
      refine List.pairwise_cons.mpr ⟨?_, ih hys⟩
      intro z hz
      rcases mem_sInsert.mp hz with rfl | hz
      · rcases htot z y with h' | h'
        · exact absurd h' h
        · exact h'
      · exact hy z hz

theorem sSort_pairwise {le : Nat → Nat → Bool} {l : List Nat}
    (htot : ∀ a b, le a b = true ∨ le b a = true)
    (htrans : ∀ a b c, le a b = true → le b c = true → le a c = true) :
    (sSort le l).Pairwise (fun a b => le a b = true) := by
  induction l with
  | nil => simp [sSort]
  | cons x xs ih => exact sInsert_pairwise htot htrans ih

theorem sSort_of_pairwise {le : Nat → Nat → Bool} {l : List Nat}
    (hl : l.Pairwise (fun a b => le a b = true)) : sSort le l = l := by
  induction l with
  | nil => rfl
  | cons x xs ih =>
    rcases List.pairwise_cons.mp hl with ⟨hx, hxs⟩
    rw [sSort, ih hxs]
    cases xs with
    | nil => rfl
    | cons y ys => simp [sInsert, hx y (List.mem_cons_self y ys)]

theorem sInsert_congr {le le' : Nat → Nat → Bool} {x : Nat} {l : List Nat}
    (h : ∀ z ∈ l, le x z = le' x z) : sInsert le x l = sInsert le' x l := by
  induction l with
  | nil => rfl
  | cons y ys ih =>
    have hy := h y (List.mem_cons_self y ys)
    by_cases hxy : le x y = true
    · have hxy' : le' x y = true := hy ▸ hxy
      rw [sInsert, if_pos hxy, sInsert, if_pos hxy']
    · have hxy' : ¬ le' x y = true := fun hc => hxy (hy ▸ hc)
      rw [sInsert, if_neg hxy, sInsert, if_neg hxy']
      rw [ih fun z hz => h z (List.mem_cons_of_mem y hz)]

theorem sSort_congr {le le' : Nat → Nat → Bool} {l : List Nat}
    (h : ∀ y ∈ l, ∀ z ∈ l, le y z = le' y z) : sSort le l = sSort le' l := by
  induction l with
  | nil => rfl
  | cons x xs ih =>
    have hxs : sSort le xs = sSort le' xs :=
      ih fun y hy z hz =>
        h y (List.mem_cons_of_mem x hy) z (List.mem_cons_of_mem x hz)
    rw [sSort, sSort, hxs]
    exact sInsert_congr fun z hz =>
      h x (List.mem_cons_self x xs) z
        (List.mem_cons_of_mem x ((sSort_perm le' xs).mem_iff.mp hz))

/-- Uniqueness of sorted permutations: two lists that are permutations of one
another and both pairwise-sorted by `le` coincide, provided `le` is
antisymmetric on the elements involved. -/
theorem sorted_perm_eq {le : Nat → Nat → Bool} {l₁ l₂ : List Nat}
    (hp : List.Perm l₁ l₂)
    (hs₁ : l₁.Pairwise (fun a b => le a b = true))
    (hs₂ : l₂.Pairwise (fun a b => le a b = true))
    (hanti : ∀ x ∈ l₁, ∀ y ∈ l₁, le x y = true → le y x = true → x = y) :
    l₁ = l₂ := by
  induction l₁ generalizing l₂ with
  | nil => exact hp.nil_eq
  | cons a t₁ ih =>
    cases l₂ with
    | nil => exact absurd hp.symm (fun h => by simpa using h.length_eq)
    | cons b t₂ =>
      rcases List.pairwise_cons.mp hs₁ with ⟨ha, hs₁'⟩
      rcases List.pairwise_cons.mp hs₂ with ⟨hb, hs₂'⟩
      have hab : b = a := by
        have hbmem : b ∈ a :: t₁ := hp.symm.subset (List.mem_cons_self b t₂)
        rcases List.mem_cons.mp hbmem with rfl | hbt
        · rfl
        · by_cases hba : b = a
          · exact hba
          · have hamem : a ∈ b :: t₂ := hp.subset (List.mem_cons_self a t₁)
            have hat₂ : a ∈ t₂ := by
              rcases List.mem_cons.mp hamem with rfl | h
              · exact absurd rfl hba
              · exact h
            exact hanti b (List.mem_cons_of_mem a hbt) a (List.mem_cons_self a t₁)
              (hb a hat₂) (ha b hbt)
      subst hab
      have hp' : List.Perm t₁ t₂ := hp.cons_inv
      have ht : t₁ = t₂ :=
        ih hp' hs₁' hs₂'
          fun x hx y hy => hanti x (List.mem_cons_of_mem b hx) y (List.mem_cons_of_mem b hy)
      rw [ht]

/-- The position at which `sInsert` places a fresh element: the result is the
original list with `x` spliced in at the index `x` ends up occupying. -/
theorem sInsert_eq_take_drop {le : Nat → Nat → Bool} {x : Nat} {l : List Nat}
    (hx : x ∉ l) :
    sInsert le x l =
      l.take ((sInsert le x l).indexOf x) ++ x :: l.drop ((sInsert le x l).indexOf x) := by
  induction l with
  | nil => simp [sInsert]
  | cons y ys ih =>
    have hxy : x ≠ y := fun h => hx (h ▸ List.mem_cons_self y ys)
    by_cases h : le x y = true
    · simp [sInsert, h]
    · have hx' : x ∉ ys := fun hc => hx (List.mem_cons_of_mem y hc)
      have hidx : (y :: sInsert le x ys).indexOf x = (sInsert le x ys).indexOf x + 1 := by
        rw [List.indexOf_cons_ne _ (fun hc => hxy hc.symm)]
      simp only [sInsert, if_neg h, hidx, List.take_succ_cons, List.drop_succ_cons,
        List.cons_append]
      rw [← ih hx']

/-! ### Auxiliary `indexOf` and erasure lemmas -/

theorem indexOf_append_cons {T D : List Nat} {x y : Nat} (hxy : y ≠ x) :
    (T ++ x :: D).indexOf y =
      if y ∈ T then T.indexOf y else T.length + 1 + D.indexOf y := by
  by_cases h : y ∈ T
  · rw [if_pos h, List.indexOf_append_of_mem h]
  · rw [if_neg h, List.indexOf_append_of_not_mem h]
    rw [List.indexOf_cons_ne _ (fun hc => hxy hc.symm)]
    omega

theorem indexOf_append_plain {T D : List Nat} {y : Nat} :
    (T ++ D).indexOf y = if y ∈ T then T.indexOf y else T.length + D.indexOf y := by
  by_cases h : y ∈ T
  · rw [if_pos h, List.indexOf_append_of_mem h]
  · rw [if_neg h, List.indexOf_append_of_not_mem h]

/-- Splicing a fresh element `x` into the middle of a list does not change the
relative `indexOf` order of the existing elements. -/
theorem indexOf_append_cons_le_iff {T D : List Nat} {x y z : Nat}
    (hxy : y ≠ x) (hxz : z ≠ x) :
    ((T ++ x :: D).indexOf y ≤ (T ++ x :: D).indexOf z ↔
      (T ++ D).indexOf y ≤ (T ++ D).indexOf z) := by
  rw [indexOf_append_cons hxy, indexOf_append_cons hxz,
    indexOf_append_plain (T := T) (D := D) (y := y),
    indexOf_append_plain (T := T) (D := D) (y := z)]
  by_cases hyT : y ∈ T <;> by_cases hzT : z ∈ T
  · rw [if_pos hyT, if_pos hyT, if_pos hzT, if_pos hzT]
  · have h1 : T.indexOf y < T.length := List.indexOf_lt_length.mpr hyT
    rw [if_pos hyT, if_pos hyT, if_neg hzT, if_neg hzT]
    omega
  · have h1 : T.indexOf z < T.length := List.indexOf_lt_length.mpr hzT
    rw [if_neg hyT, if_neg hyT, if_pos hzT, if_pos hzT]
    omega
  · rw [if_neg hyT, if_neg hyT, if_neg hzT, if_neg hzT]
    omega

theorem erase_split {F1 F2 : List Nat} {x : Nat} (hx : x ∉ F1) :
    (F1 ++ x :: F2).erase x = F1 ++ F2 := by
  induction F1 with
  | nil => simp
  | cons a t ih =>
    have hax : ¬ a = x := fun h => hx (h ▸ List.mem_cons_self a t)
    have hx' : x ∉ t := fun h => hx (List.mem_cons_of_mem a h)
    simp only [List.cons_append, List.erase_cons, beq_iff_eq, if_neg hax, ih hx']

theorem pairwise_congr_mem {r r' : Nat → Nat → Bool} {l : List Nat}
    (h : ∀ y ∈ l, ∀ z ∈ l, r y z = r' y z)
    (hl : l.Pairwise (fun a b => r a b = true)) :
    l.Pairwise (fun a b => r' a b = true) := by
  induction l with
  | nil => exact List.Pairwise.nil
  | cons a t ih =>
    rcases List.pairwise_cons.mp hl with ⟨ha, ht⟩
    refine List.pairwise_cons.mpr ⟨?_, ?_⟩
    · intro z hz
      rw [← h a (List.mem_cons_self a t) z (List.mem_cons_of_mem a hz)]
      exact ha z hz
    · exact ih (fun y hy z hz =>
        h y (List.mem_cons_of_mem a hy) z (List.mem_cons_of_mem a hz)) ht

/-! ### The sort comparator

Modelled from the spec: the binding orders `ordered_items` by `sort_key`
(reversed when `sort_reverse` is set), and equal keys are tie-broken by source
order, i.e. by position in `master_items`; with no `sort_key` the source order
itself is used. -/

def cmpLe {C K : Type} [LinearOrder K] (sort_key : Option (C → K)) (sort_reverse : Bool)
    (env : Nat → C) (master : List Nat) (x y : Nat) : Bool :=
  match sort_key with
  | none => decide (master.indexOf x ≤ master.indexOf y)
  | some k =>
    if sort_reverse then
      decide (k (env y) < k (env x)) ||
        (decide (k (env y) = k (env x)) && decide (master.indexOf x ≤ master.indexOf y))
    else
      decide (k (env x) < k (env y)) ||
        (decide (k (env x) = k (env y)) && decide (master.indexOf x ≤ master.indexOf y))

theorem cmpLe_total {C K : Type} [LinearOrder K] (sk : Option (C → K)) (sr : Bool)
    (env : Nat → C) (master : List Nat) (x y : Nat) :
    cmpLe sk sr env master x y = true ∨ cmpLe sk sr env master y x = true := by
  cases sk with
  | none =>
    simp only [cmpLe, decide_eq_true_eq]
    exact Nat.le_total _ _
  | some k =>
    cases sr <;>
      simp only [cmpLe, if_true, if_false, Bool.or_eq_true, Bool.and_eq_true,
        decide_eq_true_eq, Bool.false_eq_true, Bool.true_eq_false] <;>
    · rcases lt_trichotomy (k (env x)) (k (env y)) with h | h | h
      · simp [h, le_of_lt h]
      · rcases Nat.le_total (master.indexOf x) (master.indexOf y) with hi | hi
        · simp [h, hi]
        · simp [h.symm, hi]
      · simp [h, le_of_lt h]

theorem cmpLe_trans {C K : Type} [LinearOrder K] (sk : Option (C → K)) (sr : Bool)
    (env : Nat → C) (master : List Nat) (x y z : Nat)
    (h1 : cmpLe sk sr env master x y = true) (h2 : cmpLe sk sr env master y z = true) :
    cmpLe sk sr env master x z = true := by
  cases sk with
  | none =>
    simp only [cmpLe, decide_eq_true_eq] at h1 h2 ⊢
    exact Nat.le_trans h1 h2
  | some k =>
    cases sr with
    | false =>
      simp only [cmpLe, if_true, if_false, Bool.or_eq_true, Bool.and_eq_true,
        decide_eq_true_eq, Bool.false_eq_true, Bool.true_eq_false] at h1 h2 ⊢
      rcases h1 with h1 | ⟨he1, hi1⟩ <;> rcases h2 with h2 | ⟨he2, hi2⟩
      · exact Or.inl (lt_trans h1 h2)
      · exact Or.inl (by rw [← he2]; exact h1)
      · exact Or.inl (by rw [← he1] at h2; exact h2)
      · exact Or.inr ⟨he1.trans he2, Nat.le_trans hi1 hi2⟩
    | true =>
      simp only [cmpLe, if_true, if_false, Bool.or_eq_true, Bool.and_eq_true,
        decide_eq_true_eq, Bool.false_eq_true, Bool.true_eq_false] at h1 h2 ⊢
      rcases h1 with h1 | ⟨he1, hi1⟩ <;> rcases h2 with h2 | ⟨he2, hi2⟩
      · exact Or.inl (lt_trans h2 h1)
      · exact Or.inl (by rw [← he2] at h1; exact h1)
      · exact Or.inl (by rw [← he1]; exact h2)
      · exact Or.inr ⟨he2.trans he1, Nat.le_trans hi1 hi2⟩

theorem cmpLe_antisymm_mem {C K : Type} [LinearOrder K] (sk : Option (C → K)) (sr : Bool)
    (env : Nat → C) {master : List Nat} {x y : Nat}
    (hx : x ∈ master) (hy : y ∈ master)
    (h1 : cmpLe sk sr env master x y = true) (h2 : cmpLe sk sr env master y x = true) :
    x = y := by
  cases sk with
  | none =>
    simp only [cmpLe, decide_eq_true_eq] at h1 h2
    exact (List.indexOf_inj hx hy).mp (Nat.le_antisymm h1 h2)
  | some k =>
    cases sr with
    | false =>
      simp only [cmpLe, if_true, if_false, Bool.or_eq_true, Bool.and_eq_true,
        decide_eq_true_eq, Bool.false_eq_true, Bool.true_eq_false] at h1 h2
      rcases h1 with h1 | ⟨he1, hi1⟩ <;> rcases h2 with h2 | ⟨he2, hi2⟩
      · exact absurd h2 (lt_asymm h1)
      · exact absurd he2 (ne_of_gt h1)
      · exact absurd he1 (ne_of_gt h2)
      · exact (List.indexOf_inj hx hy).mp (Nat.le_antisymm hi1 hi2)
    | true =>
      simp only [cmpLe, if_true, if_false, Bool.or_eq_true, Bool.and_eq_true,
        decide_eq_true_eq, Bool.false_eq_true, Bool.true_eq_false] at h1 h2
      rcases h1 with h1 | ⟨he1, hi1⟩ <;> rcases h2 with h2 | ⟨he2, hi2⟩
      · exact absurd h2 (lt_asymm h1)
      · exact absurd he2 (ne_of_gt h1)
      · exact absurd he1 (ne_of_gt h2)
      · exact (List.indexOf_inj hx hy).mp (Nat.le_antisymm hi1 hi2)

theorem cmpLe_congr_env {C K : Type} [LinearOrder K] (sk : Option (C → K)) (sr : Bool)
    {env env' : Nat → C} {x : Nat} (h : ∀ i, i ≠ x → env' i = env i)
    (master : List Nat) {y z : Nat} (hy : y ≠ x) (hz : z ≠ x) :
    cmpLe sk sr env' master y z = cmpLe sk sr env master y z := by
  cases sk with
  | none => rfl
  | some k => cases sr <;> simp only [cmpLe] <;> rw [h y hy, h z hz]

theorem cmpLe_congr_splice {C K : Type} [LinearOrder K] (sk : Option (C → K)) (sr : Bool)
    (env : Nat → C) {T D : List Nat} {x y z : Nat} (hy : y ≠ x) (hz : z ≠ x) :
    cmpLe sk sr env (T ++ x :: D) y z = cmpLe sk sr env (T ++ D) y z := by
  have hidx : (List.indexOf y (T ++ x :: D) ≤ List.indexOf z (T ++ x :: D)) ↔
      (List.indexOf y (T ++ D) ≤ List.indexOf z (T ++ D)) :=
    indexOf_append_cons_le_iff hy hz
  cases sk with
  | none =>
    simp only [cmpLe]
    exact decide_eq_decide.mpr hidx
  | some k =>
    cases sr <;> simp only [cmpLe, if_true, if_false, Bool.false_eq_true, Bool.true_eq_false] <;>
      rw [decide_eq_decide.mpr hidx]

theorem nodup_split_of_mem {M : List Nat} {x : Nat} (hx : x ∈ M) (hnd : M.Nodup) :
    ∃ T D, M = T ++ x :: D ∧ x ∉ T ∧ x ∉ D ∧ (T ++ D).Nodup := by
  rcases List.append_of_mem hx with ⟨T, D, rfl⟩
  have h2 : (x :: (T ++ D)).Nodup := (List.perm_middle).nodup hnd
  rcases List.nodup_cons.mp h2 with ⟨hxTD, hTD⟩
  exact ⟨T, D, rfl, fun h => hxTD (List.mem_append.mpr (Or.inl h)),
    fun h => hxTD (List.mem_append.mpr (Or.inr h)), hTD⟩

/-- Incrementally inserting a fresh element with an ordered insert against a
total, transitive comparator that is antisymmetric on the elements involved
yields exactly the from-scratch sort of the spliced list. -/
theorem sInsert_sSort_splice {r : Nat → Nat → Bool} {x : Nat} {FT FD O : List Nat}
    (htot : ∀ a b, r a b = true ∨ r b a = true)
    (htrans : ∀ a b c, r a b = true → r b c = true → r a c = true)
    (hanti : ∀ a ∈ x :: (FT ++ FD), ∀ b ∈ x :: (FT ++ FD),
      r a b = true → r b a = true → a = b)
    (hO : O = sSort r (FT ++ FD)) :
    sInsert r x O = sSort r (FT ++ x :: FD) := by
  have hOp : List.Perm O (FT ++ FD) := hO ▸ sSort_perm r _
  have hperm : List.Perm (sInsert r x O) (sSort r (FT ++ x :: FD)) :=
    ((sInsert_perm r x O).trans (hOp.cons x)).trans
      (List.perm_middle.symm.trans (sSort_perm r _).symm)
  apply sorted_perm_eq hperm
  · exact sInsert_pairwise htot htrans (hO ▸ sSort_pairwise htot htrans)
  · exact sSort_pairwise htot htrans
  · intro a ha b hb
    have ha' : a ∈ x :: (FT ++ FD) := by
      rcases mem_sInsert.mp ha with rfl | h
      · exact List.mem_cons_self _ _
      · exact List.mem_cons_of_mem _ (hOp.subset h)
    have hb' : b ∈ x :: (FT ++ FD) := by
      rcases mem_sInsert.mp hb with rfl | h
      · exact List.mem_cons_self _ _
      · exact List.mem_cons_of_mem _ (hOp.subset h)
    exact hanti a ha' b hb'

/-- Erasing an element from the materialized sorted projection yields exactly
the from-scratch sort of the list with that element spliced out. -/
theorem erase_sSort_splice {r : Nat → Nat → Bool} {x : Nat} {FT FD O : List Nat}
    (htot : ∀ a b, r a b = true ∨ r b a = true)
    (htrans : ∀ a b c, r a b = true → r b c = true → r a c = true)
    (hanti : ∀ a ∈ FT ++ x :: FD, ∀ b ∈ FT ++ x :: FD,
      r a b = true → r b a = true → a = b)
    (hxFT : x ∉ FT)
    (hO : O = sSort r (FT ++ x :: FD)) :
    O.erase x = sSort r (FT ++ FD) := by
  have hOp : List.Perm O (FT ++ x :: FD) := hO ▸ sSort_perm r _
  have hperm : List.Perm (O.erase x) (sSort r (FT ++ FD)) := by
    have h1 := hOp.erase x
    rw [erase_split hxFT] at h1
    exact h1.trans (sSort_perm r _).symm
  apply sorted_perm_eq hperm
  · exact List.Pairwise.sublist (List.erase_sublist x O) (hO ▸ sSort_pairwise htot htrans)
  · exact sSort_pairwise htot htrans
  · intro a ha b hb
    exact hanti a (hOp.subset (List.mem_of_mem_erase ha))
      b (hOp.subset (List.mem_of_mem_erase hb))

/-! ### The binding and its operations

Modelled from the spec: `DataItemsBinding` (whose implementation is not among
the provided source files; only its tests are) maintains `master_items`, the
unfiltered source ordering, and `ordered_items`, the materialized filtered and
sorted projection.  Items are identified by natural numbers; their mutable
contents (title, live status, ...) are read from an environment `env : Nat → C`;
`filter` and `sort_key` are functions of an item content. -/

inductive BEvent where
  | inserted (item : Nat) (pos : Nat)
  | removed (item : Nat) (pos : Nat)
  | moved (item : Nat) (fromPos toPos : Nat)
  | reset (items : List Nat)
deriving DecidableEq

structure Binding (C K : Type) where
  master_items : List Nat
  ordered_items : List Nat
  filter : C → Bool
  sort_key : Option (C → K)
  sort_reverse : Bool
  change_count : Nat
  needs_update : Bool

/-- The projection the spec's invariant demands: `sorted(filter(master_items))`
under the binding comparator. -/
def deriveOrdered {C K : Type} [LinearOrder K] (b : Binding C K) (env : Nat → C) : List Nat :=
  sSort (cmpLe b.sort_key b.sort_reverse env b.master_items)
    (b.master_items.filter fun i => b.filter (env i))

/-- Modelled from the spec: `insert(container, item, index, is_move)` records
the item at `index` in `master_items`; if the item passes `filter` it is
placed into `ordered_items` by an ordered insert against the comparator (ties
broken by source order) and an insert event is emitted, else no event. -/
def data_item_inserted {C K : Type} [LinearOrder K] (b : Binding C K) (env : Nat → C)
    (item : Nat) (index : Nat) : Binding C K × List BEvent :=
  let master' := b.master_items.take index ++ item :: b.master_items.drop index
  if b.filter (env item) then
    let ordered' := sInsert (cmpLe b.sort_key b.sort_reverse env master') item b.ordered_items
    ({ b with master_items := master', ordered_items := ordered' },
      [.inserted item (ordered'.indexOf item)])
  else ({ b with master_items := master' }, [])

/-- Modelled from the spec: `remove(item)` removes the item from
`master_items`; if it was present in `ordered_items` a remove event carrying
its current position is emitted before physical removal. -/
def data_item_removed {C K : Type} [LinearOrder K] (b : Binding C K) (item : Nat) :
    Binding C K × List BEvent :=
  let evs := if item ∈ b.ordered_items then
    [BEvent.removed item (b.ordered_items.indexOf item)] else []
  ({ b with master_items := b.master_items.erase item,
            ordered_items := b.ordered_items.erase item }, evs)

/-- Modelled from the spec: `content_changed(item)` re-evaluates `filter(item)`
and the item's ordered position, with the four cases of section 4.1: absent and
still failing is a no-op; absent and now passing is an ordered insert emitting
an insert event; present and now failing is a removal emitting a remove event;
present and still passing recomputes the position and emits a moved event only
if the position actually changed. -/
def data_item_content_changed {C K : Type} [LinearOrder K] (b : Binding C K) (env : Nat → C)
    (item : Nat) : Binding C K × List BEvent :=
  if item ∈ b.master_items then
    if item ∈ b.ordered_items then
      if b.filter (env item) then
        let oldPos := b.ordered_items.indexOf item
        let ordered' := sInsert (cmpLe b.sort_key b.sort_reverse env b.master_items) item
          (b.ordered_items.erase item)
        let newPos := ordered'.indexOf item
        ({ b with ordered_items := ordered' },
          if newPos = oldPos then [] else [.moved item oldPos newPos])
      else
        ({ b with ordered_items := b.ordered_items.erase item },
          [.removed item (b.ordered_items.indexOf item)])
    else
      if b.filter (env item) then
        let ordered' := sInsert (cmpLe b.sort_key b.sort_reverse env b.master_items) item
          b.ordered_items
        ({ b with ordered_items := ordered' }, [.inserted item (ordered'.indexOf item)])
      else (b, [])
  else (b, [])

/-- The spec's central invariant: `master_items` holds distinct items and
`ordered_items` is exactly `sorted(filter(master_items))`. -/
def Inv {C K : Type} [LinearOrder K] (b : Binding C K) (env : Nat → C) : Prop :=
  b.master_items.Nodup ∧ b.ordered_items = deriveOrdered b env

theorem mem_splice_of_mem {T D : List Nat} {x a : Nat} (h : a ∈ T ++ D) : a ∈ T ++ x :: D := by
  rcases List.mem_append.mp h with h | h
  · exact List.mem_append.mpr (Or.inl h)
  · exact List.mem_append.mpr (Or.inr (List.mem_cons_of_mem x h))

theorem mem_splice_self {T D : List Nat} {x : Nat} : x ∈ T ++ x :: D :=
  List.mem_append.mpr (Or.inr (List.mem_cons_self x D))

theorem membership_of_filter_append {T D : List Nat} {p : Nat → Bool} {a : Nat}
    (h : a ∈ T.filter p ++ D.filter p) : a ∈ T ++ D := by
  rcases List.mem_append.mp h with h | h
  · exact List.mem_append.mpr (Or.inl (List.mem_filter.mp h).1)
  · exact List.mem_append.mpr (Or.inr (List.mem_filter.mp h).1)

/-- Core of insert: an ordered insert of a fresh filtered-in item into the
materialized projection equals the recomputed projection of the spliced
master list. -/
theorem inserted_core {C K : Type} [LinearOrder K] (sk : Option (C → K)) (sr : Bool)
    (env : Nat → C) (p : Nat → Bool) {T D O : List Nat} {x : Nat}
    (hx : x ∉ T ++ D)
    (hO : O = sSort (cmpLe sk sr env (T ++ D)) ((T ++ D).filter p)) (hpx : p x = true) :
    sInsert (cmpLe sk sr env (T ++ x :: D)) x O
      = sSort (cmpLe sk sr env (T ++ x :: D)) ((T ++ x :: D).filter p) := by
  have hfilter : (T ++ x :: D).filter p = T.filter p ++ x :: D.filter p := by
    simp [List.filter_append, List.filter_cons, hpx]
  have hfilterTD : (T ++ D).filter p = T.filter p ++ D.filter p := List.filter_append T D
  have hne : ∀ a ∈ T.filter p ++ D.filter p, a ≠ x :=
    fun a ha hax => hx (hax ▸ membership_of_filter_append ha)
  have hO' : O = sSort (cmpLe sk sr env (T ++ x :: D)) (T.filter p ++ D.filter p) := by
    rw [hO, hfilterTD]
    exact (sSort_congr fun y hy z hz =>
      cmpLe_congr_splice sk sr env (hne y hy) (hne z hz)).symm
  rw [hfilter]
  apply sInsert_sSort_splice (cmpLe_total sk sr env _) (cmpLe_trans sk sr env _) ?_ hO'
  intro a ha b hb h1 h2
  have hmem : ∀ c ∈ x :: (T.filter p ++ D.filter p), c ∈ T ++ x :: D := by
    intro c hc
    rcases List.mem_cons.mp hc with rfl | hc
    · exact mem_splice_self
    · exact mem_splice_of_mem (membership_of_filter_append hc)
  exact cmpLe_antisymm_mem sk sr env (hmem a ha) (hmem b hb) h1 h2

/-- Core of removal: erasing an item from the materialized projection equals
the recomputed projection of the master list with the item spliced out. -/
theorem removed_core {C K : Type} [LinearOrder K] (sk : Option (C → K)) (sr : Bool)
    (env : Nat → C) (p : Nat → Bool) {T D O : List Nat} {x : Nat}
    (hnd : (T ++ x :: D).Nodup)
    (hO : O = sSort (cmpLe sk sr env (T ++ x :: D)) ((T ++ x :: D).filter p)) :
    O.erase x = sSort (cmpLe sk sr env (T ++ D)) ((T ++ D).filter p) := by
  have hxTD : x ∉ T ++ D := by
    have h2 := (List.perm_middle : List.Perm (T ++ x :: D) (x :: (T ++ D))).nodup hnd
    exact (List.nodup_cons.mp h2).1
  have hxT : x ∉ T := fun h => hxTD (List.mem_append.mpr (Or.inl h))
  have hxFT : x ∉ T.filter p := fun h => hxT (List.mem_filter.mp h).1
  have hne : ∀ a ∈ T.filter p ++ D.filter p, a ≠ x :=
    fun a ha hax => hxTD (hax ▸ membership_of_filter_append ha)
  have hfilterTD : (T ++ D).filter p = T.filter p ++ D.filter p := List.filter_append T D
  have hcongr : sSort (cmpLe sk sr env (T ++ x :: D)) (T.filter p ++ D.filter p)
      = sSort (cmpLe sk sr env (T ++ D)) (T.filter p ++ D.filter p) :=
    sSort_congr fun y hy z hz => cmpLe_congr_splice sk sr env (hne y hy) (hne z hz)
  by_cases hpx : p x = true
  · have hfilter : (T ++ x :: D).filter p = T.filter p ++ x :: D.filter p := by
      simp [List.filter_append, List.filter_cons, hpx]
    rw [hfilter] at hO
    rw [hfilterTD, ← hcongr]
    apply erase_sSort_splice (cmpLe_total sk sr env _) (cmpLe_trans sk sr env _) ?_ hxFT hO
    intro a ha b hb h1 h2
    have hmem : ∀ c ∈ T.filter p ++ x :: D.filter p, c ∈ T ++ x :: D := by
      intro c hc
      rcases List.mem_append.mp hc with hc | hc
      · exact List.mem_append.mpr (Or.inl (List.mem_filter.mp hc).1)
      · rcases List.mem_cons.mp hc with rfl | hc
        · exact mem_splice_self
        · exact List.mem_append.mpr (Or.inr (List.mem_cons_of_mem x (List.mem_filter.mp hc).1))
    exact cmpLe_antisymm_mem sk sr env (hmem a ha) (hmem b hb) h1 h2
  · have hpx' : p x = false := Bool.eq_false_iff.mpr hpx
    have hfilter : (T ++ x :: D).filter p = T.filter p ++ D.filter p := by
      simp [List.filter_append, List.filter_cons, hpx']
    have hxO : x ∉ O := by
      rw [hO, hfilter, mem_sSort]
      exact fun h => hne x h rfl
    rw [List.erase_of_not_mem hxO, hO, hfilter, hfilterTD, hcongr]

theorem mem_ordered_iff {C K : Type} [LinearOrder K] {b : Binding C K} {env : Nat → C}
    (hInv : Inv b env) {x : Nat} (hx : x ∈ b.master_items) :
    x ∈ b.ordered_items ↔ b.filter (env x) = true := by
  rw [hInv.2, deriveOrdered, mem_sSort, List.mem_filter]
  exact ⟨fun h => h.2, fun h => ⟨hx, h⟩⟩

theorem not_mem_ordered {C K : Type} [LinearOrder K] {b : Binding C K} {env : Nat → C}
    (hInv : Inv b env) {x : Nat} (hx : x ∉ b.master_items) :
    x ∉ b.ordered_items := by
  rw [hInv.2, deriveOrdered, mem_sSort, List.mem_filter]
  exact fun h => hx h.1

theorem sSort_congr_env {C K : Type} [LinearOrder K] (sk : Option (C → K)) (sr : Bool)
    {env env' : Nat → C} {x : Nat} (hagree : ∀ i, i ≠ x → env' i = env i)
    (master : List Nat) {L : List Nat} (hxL : ∀ a ∈ L, a ≠ x) :
    sSort (cmpLe sk sr env' master) L = sSort (cmpLe sk sr env master) L :=
  sSort_congr fun y hy z hz => cmpLe_congr_env sk sr hagree master (hxL y hy) (hxL z hz)

theorem filter_env_congr {C : Type} (f : C → Bool) {env env' : Nat → C} {x : Nat}
    (hagree : ∀ i, i ≠ x → env' i = env i) {L : List Nat} (hxL : x ∉ L) :
    (L.filter fun i => f (env' i)) = (L.filter fun i => f (env i)) :=
  List.filter_congr fun a ha => by rw [hagree a (fun h => hxL (h ▸ ha))]

/-- Inserting a filtered-out item leaves the projection untouched and still in
sync with the recomputed projection of the spliced master list. -/
theorem inserted_core_out {C K : Type} [LinearOrder K] (sk : Option (C → K)) (sr : Bool)
    (env : Nat → C) (p : Nat → Bool) {T D O : List Nat} {x : Nat}
    (hx : x ∉ T ++ D)
    (hO : O = sSort (cmpLe sk sr env (T ++ D)) ((T ++ D).filter p)) (hpx : p x = false) :
    O = sSort (cmpLe sk sr env (T ++ x :: D)) ((T ++ x :: D).filter p) := by
  have hfilter : (T ++ x :: D).filter p = T.filter p ++ D.filter p := by
    simp [List.filter_append, List.filter_cons, hpx]
  have hfilterTD : (T ++ D).filter p = T.filter p ++ D.filter p := List.filter_append T D
  have hne : ∀ a ∈ T.filter p ++ D.filter p, a ≠ x :=
    fun a ha hax => hx (hax ▸ membership_of_filter_append ha)
  rw [hO, hfilterTD, hfilter]
  exact (sSort_congr fun y hy z hz =>
    cmpLe_congr_splice sk sr env (hne y hy) (hne z hz)).symm

theorem inserted_inv {C K : Type} [LinearOrder K] {b : Binding C K} {env : Nat → C}
    {x i : Nat} (hInv : Inv b env) (hx : x ∉ b.master_items) :
    Inv (data_item_inserted b env x i).1 env := by
  rcases hInv with ⟨hnd, hord⟩
  have hxTD : x ∉ b.master_items.take i ++ b.master_items.drop i := by
    rwa [List.take_append_drop]
  have hndM' : (b.master_items.take i ++ x :: b.master_items.drop i).Nodup := by
    apply List.perm_middle.symm.nodup
    refine List.nodup_cons.mpr ⟨hxTD, ?_⟩
    rwa [List.take_append_drop]
  have hO : b.ordered_items =
      sSort (cmpLe b.sort_key b.sort_reverse env
        (b.master_items.take i ++ b.master_items.drop i))
        ((b.master_items.take i ++ b.master_items.drop i).filter fun j => b.filter (env j)) := by
    rw [List.take_append_drop]
    exact hord
  by_cases hpx : b.filter (env x) = true
  · refine ⟨?_, ?_⟩
    · simpa only [data_item_inserted, if_pos hpx] using hndM'
    · show (data_item_inserted b env x i).1.ordered_items
        = deriveOrdered (data_item_inserted b env x i).1 env
      simp only [data_item_inserted, if_pos hpx]
      exact inserted_core b.sort_key b.sort_reverse env _ hxTD hO hpx
  · have hpx' : b.filter (env x) = false := Bool.eq_false_iff.mpr hpx
    refine ⟨?_, ?_⟩
    · simpa only [data_item_inserted, if_neg hpx] using hndM'
    · show (data_item_inserted b env x i).1.ordered_items
        = deriveOrdered (data_item_inserted b env x i).1 env
      simp only [data_item_inserted, if_neg hpx]
      exact inserted_core_out b.sort_key b.sort_reverse env _ hxTD hO hpx'

theorem removed_inv {C K : Type} [LinearOrder K] {b : Binding C K} {env : Nat → C}
    {x : Nat} (hInv : Inv b env) : Inv (data_item_removed b x).1 env := by
  rcases hInv with ⟨hnd, hord⟩
  by_cases hxm : x ∈ b.master_items
  · rcases nodup_split_of_mem hxm hnd with ⟨T, D, hTD, hxT, hxD, hndTD⟩
    have hndM : (T ++ x :: D).Nodup := hTD ▸ hnd
    have hO : b.ordered_items =
        sSort (cmpLe b.sort_key b.sort_reverse env (T ++ x :: D))
          ((T ++ x :: D).filter fun j => b.filter (env j)) := by
      rw [← hTD]
      exact hord
    refine ⟨?_, ?_⟩
    · show (b.master_items.erase x).Nodup
      rw [hTD, erase_split hxT]
      exact hndTD
    · show b.ordered_items.erase x = deriveOrdered (data_item_removed b x).1 env
      have hmaster : (data_item_removed b x).1.master_items = T ++ D := by
        show b.master_items.erase x = T ++ D
        rw [hTD, erase_split hxT]
      rw [deriveOrdered, hmaster]
      exact removed_core b.sort_key b.sort_reverse env _ hndM hO
  · have hxo : x ∉ b.ordered_items := not_mem_ordered ⟨hnd, hord⟩ hxm
    have h1 : b.master_items.erase x = b.master_items := List.erase_of_not_mem hxm
    have h2 : b.ordered_items.erase x = b.ordered_items := List.erase_of_not_mem hxo
    refine ⟨?_, ?_⟩
    · show (b.master_items.erase x).Nodup
      rw [h1]
      exact hnd
    · show b.ordered_items.erase x = deriveOrdered (data_item_removed b x).1 env
      rw [deriveOrdered]
      have hmaster : (data_item_removed b x).1.master_items = b.master_items := h1
      rw [hmaster, h2]
      exact hord

theorem content_changed_inv {C K : Type} [LinearOrder K] {b : Binding C K}
    {env env' : Nat → C} {x : Nat} (hInv : Inv b env)
    (hagree : ∀ i, i ≠ x → env' i = env i) :
    Inv (data_item_content_changed b env' x).1 env' := by
  rcases hInv with ⟨hnd, hord⟩
  by_cases hxm : x ∈ b.master_items
  case neg =>
    have hne : ∀ a ∈ (b.master_items.filter fun j => b.filter (env j)), a ≠ x :=
      fun a ha hax => hxm (hax ▸ (List.mem_filter.mp ha).1)
    have hfil : (b.master_items.filter fun j => b.filter (env' j))
        = (b.master_items.filter fun j => b.filter (env j)) :=
      filter_env_congr b.filter hagree hxm
    refine ⟨?_, ?_⟩
    · simpa only [data_item_content_changed, if_neg hxm] using hnd
    · show (data_item_content_changed b env' x).1.ordered_items
        = deriveOrdered (data_item_content_changed b env' x).1 env'
      simp only [data_item_content_changed, if_neg hxm]
      show b.ordered_items
        = sSort (cmpLe b.sort_key b.sort_reverse env' b.master_items)
            (b.master_items.filter fun j => b.filter (env' j))
      rw [hfil, sSort_congr_env b.sort_key b.sort_reverse hagree _ hne]
      exact hord
  case pos =>
    rcases nodup_split_of_mem hxm hnd with ⟨T, D, hTD, hxT, hxD, hndTD⟩
    have hndM : (T ++ x :: D).Nodup := hTD ▸ hnd
    have hxTD : x ∉ T ++ D := fun h => (List.mem_append.mp h).elim hxT hxD
    have hordTD : b.ordered_items =
        sSort (cmpLe b.sort_key b.sort_reverse env (T ++ x :: D))
          ((T ++ x :: D).filter fun j => b.filter (env j)) := by
      rw [← hTD]
      exact hord
    have hfT : (T.filter fun j => b.filter (env' j)) = T.filter fun j => b.filter (env j) :=
      filter_env_congr b.filter hagree hxT
    have hfD : (D.filter fun j => b.filter (env' j)) = D.filter fun j => b.filter (env j) :=
      filter_env_congr b.filter hagree hxD
    have hfTD : ((T ++ D).filter fun j => b.filter (env' j))
        = (T ++ D).filter fun j => b.filter (env j) :=
      filter_env_congr b.filter hagree hxTD
    have hneF : ∀ a ∈ ((T ++ D).filter fun j => b.filter (env j)), a ≠ x :=
      fun a ha hax => hxTD (hax ▸ (List.mem_filter.mp ha).1)
    by_cases hxo : x ∈ b.ordered_items <;> by_cases hpx' : b.filter (env' x) = true
    · -- case (d): present, still passing: remove then sorted re-insert
      have h1 : b.ordered_items.erase x =
          sSort (cmpLe b.sort_key b.sort_reverse env (T ++ D))
            ((T ++ D).filter fun j => b.filter (env j)) :=
        removed_core b.sort_key b.sort_reverse env _ hndM hordTD
      have h2 : b.ordered_items.erase x =
          sSort (cmpLe b.sort_key b.sort_reverse env' (T ++ D))
            ((T ++ D).filter fun j => b.filter (env' j)) := by
        rw [hfTD, sSort_congr_env b.sort_key b.sort_reverse hagree _ hneF]
        exact h1
      refine ⟨?_, ?_⟩
      · simpa only [data_item_content_changed, if_pos hxm, if_pos hxo, if_pos hpx'] using hnd
      · show (data_item_content_changed b env' x).1.ordered_items
          = deriveOrdered (data_item_content_changed b env' x).1 env'
        simp only [data_item_content_changed, if_pos hxm, if_pos hxo, if_pos hpx']
        show sInsert (cmpLe b.sort_key b.sort_reverse env' b.master_items) x
            (b.ordered_items.erase x)
          = sSort (cmpLe b.sort_key b.sort_reverse env' b.master_items)
              (b.master_items.filter fun j => b.filter (env' j))
        rw [hTD]
        exact inserted_core b.sort_key b.sort_reverse env' _ hxTD h2 hpx'
    · -- case (c): present, now failing: removal
      have h1 : b.ordered_items.erase x =
          sSort (cmpLe b.sort_key b.sort_reverse env (T ++ D))
            ((T ++ D).filter fun j => b.filter (env j)) :=
        removed_core b.sort_key b.sort_reverse env _ hndM hordTD
      have hpxf : b.filter (env' x) = false := Bool.eq_false_iff.mpr hpx'
      have hfilx : ((T ++ x :: D).filter fun j => b.filter (env' j))
          = (T ++ D).filter fun j => b.filter (env j) := by
        simp only [List.filter_append, List.filter_cons, hpxf, hfT, hfD]
        rfl
      refine ⟨?_, ?_⟩
      · simpa only [data_item_content_changed, if_pos hxm, if_pos hxo, if_neg hpx'] using hnd
      · show (data_item_content_changed b env' x).1.ordered_items
          = deriveOrdered (data_item_content_changed b env' x).1 env'
        simp only [data_item_content_changed, if_pos hxm, if_pos hxo, if_neg hpx']
        show b.ordered_items.erase x
          = sSort (cmpLe b.sort_key b.sort_reverse env' b.master_items)
              (b.master_items.filter fun j => b.filter (env' j))
        rw [hTD, hfilx,
          sSort_congr_env b.sort_key b.sort_reverse hagree (T ++ x :: D) hneF, h1]
        exact sSort_congr fun y hy z hz =>
          (cmpLe_congr_splice b.sort_key b.sort_reverse env (hneF y hy) (hneF z hz)).symm
    · -- case (b): absent, now passing: sorted insert
      have hpxf : b.filter (env x) = false :=
        Bool.eq_false_iff.mpr fun h => hxo ((mem_ordered_iff ⟨hnd, hord⟩ hxm).mpr h)
      have hfil0 : ((T ++ x :: D).filter fun j => b.filter (env j))
          = (T ++ D).filter fun j => b.filter (env j) := by
        simp only [List.filter_append, List.filter_cons, hpxf, Bool.false_eq_true, if_false]
      have hO2 : b.ordered_items =
          sSort (cmpLe b.sort_key b.sort_reverse env' (T ++ D))
            ((T ++ D).filter fun j => b.filter (env' j)) := by
        rw [hfTD, sSort_congr_env b.sort_key b.sort_reverse hagree _ hneF, hordTD, hfil0]
        exact sSort_congr fun y hy z hz =>
          cmpLe_congr_splice b.sort_key b.sort_reverse env (hneF y hy) (hneF z hz)
      refine ⟨?_, ?_⟩
      · simpa only [data_item_content_changed, if_pos hxm, if_neg hxo, if_pos hpx'] using hnd
      · show (data_item_content_changed b env' x).1.ordered_items
          = deriveOrdered (data_item_content_changed b env' x).1 env'
        simp only [data_item_content_changed, if_pos hxm, if_neg hxo, if_pos hpx']
        show sInsert (cmpLe b.sort_key b.sort_reverse env' b.master_items) x b.ordered_items
          = sSort (cmpLe b.sort_key b.sort_reverse env' b.master_items)
              (b.master_items.filter fun j => b.filter (env' j))
        rw [hTD]
        exact inserted_core b.sort_key b.sort_reverse env' _ hxTD hO2 hpx'
    · -- case (a): absent, still failing: no-op
      have hpxf : b.filter (env x) = false :=
        Bool.eq_false_iff.mpr fun h => hxo ((mem_ordered_iff ⟨hnd, hord⟩ hxm).mpr h)
      have hpxf' : b.filter (env' x) = false := Bool.eq_false_iff.mpr hpx'
      have hfil0 : ((T ++ x :: D).filter fun j => b.filter (env j))
          = (T ++ D).filter fun j => b.filter (env j) := by
        simp only [List.filter_append, List.filter_cons, hpxf, Bool.false_eq_true, if_false]
      have hfilx : ((T ++ x :: D).filter fun j => b.filter (env' j))
          = (T ++ D).filter fun j => b.filter (env j) := by
        simp only [List.filter_append, List.filter_cons, hpxf', hfT, hfD]
        rfl
      refine ⟨?_, ?_⟩
      · simpa only [data_item_content_changed, if_pos hxm, if_neg hxo, if_neg hpx'] using hnd
      · show (data_item_content_changed b env' x).1.ordered_items
          = deriveOrdered (data_item_content_changed b env' x).1 env'
        simp only [data_item_content_changed, if_pos hxm, if_neg hxo, if_neg hpx']
        show b.ordered_items
          = sSort (cmpLe b.sort_key b.sort_reverse env' b.master_items)
              (b.master_items.filter fun j => b.filter (env' j))
        rw [hTD, hfilx,
          sSort_congr_env b.sort_key b.sort_reverse hagree (T ++ x :: D) hneF,
          hordTD, hfil0]

theorem inv_update_env_not_mem {C K : Type} [LinearOrder K] {b : Binding C K}
    {env : Nat → C} {x : Nat} (c : C) (hInv : Inv b env) (hx : x ∉ b.master_items) :
    Inv b (Function.update env x c) := by
  rcases hInv with ⟨hnd, hord⟩
  have hagree : ∀ i, i ≠ x → Function.update env x c i = env i :=
    fun i hi => Function.update_noteq hi c env
  have hne : ∀ a ∈ (b.master_items.filter fun j => b.filter (env j)), a ≠ x :=
    fun a ha hax => hx (hax ▸ (List.mem_filter.mp ha).1)
  refine ⟨hnd, ?_⟩
  show b.ordered_items
    = sSort (cmpLe b.sort_key b.sort_reverse (Function.update env x c) b.master_items)
        (b.master_items.filter fun j => b.filter (Function.update env x c j))
  rw [filter_env_congr b.filter hagree hx,
    sSort_congr_env b.sort_key b.sort_reverse hagree _ hne]
  exact hord

theorem ordered_nodup {C K : Type} [LinearOrder K] {b : Binding C K} {env : Nat → C}
    (hInv : Inv b env) : b.ordered_items.Nodup := by
  rw [hInv.2, deriveOrdered]
  exact (sSort_perm _ _).symm.nodup (hInv.1.filter _)

/-! ### Construction, property setters and the change-batching scope

Modelled from the spec: `DataItemsInContainerBinding` starts empty with an
accept-all filter and no sort key (the constructor below takes the initial
property values as parameters); each property setter re-derives the whole
projection from scratch and emits one reset event, unless a change-batch scope
is open, in which case the recomputation is deferred and performed once when
the outermost scope closes. -/

def DataItemsInContainerBinding {C K : Type} (filt : C → Bool) (sk : Option (C → K))
    (sr : Bool) : Binding C K :=
  { master_items := [], ordered_items := [], filter := filt, sort_key := sk,
    sort_reverse := sr, change_count := 0, needs_update := false }

def updateAfterSetting {C K : Type} [LinearOrder K] (b : Binding C K) (env : Nat → C) :
    Binding C K × List BEvent :=
  if b.change_count = 0 then
    ({ b with ordered_items := deriveOrdered b env }, [.reset (deriveOrdered b env)])
  else ({ b with needs_update := true }, [])

def set_filter {C K : Type} [LinearOrder K] (b : Binding C K) (env : Nat → C) (f : C → Bool) :
    Binding C K × List BEvent :=
  updateAfterSetting { b with filter := f } env

def set_sort_key {C K : Type} [LinearOrder K] (b : Binding C K) (env : Nat → C)
    (k : Option (C → K)) : Binding C K × List BEvent :=
  updateAfterSetting { b with sort_key := k } env

def set_sort_reverse {C K : Type} [LinearOrder K] (b : Binding C K) (env : Nat → C)
    (r : Bool) : Binding C K × List BEvent :=
  updateAfterSetting { b with sort_reverse := r } env

def begin_changes {C K : Type} (b : Binding C K) : Binding C K :=
  { b with change_count := b.change_count + 1 }

def end_changes {C K : Type} [LinearOrder K] (b : Binding C K) (env : Nat → C) :
    Binding C K × List BEvent :=
  if b.change_count = 1 ∧ b.needs_update = true then
    ({ b with change_count := b.change_count - 1,
              ordered_items := deriveOrdered b env, needs_update := false },
      [.reset (deriveOrdered b env)])
  else ({ b with change_count := b.change_count - 1 }, [])

/-! ### Source operation traces -/

inductive SrcOp (C : Type) where
  | ins (item : Nat) (index : Nat) (c : C)
  | rem (item : Nat)
  | chg (item : Nat) (c : C)

def opPre {C K : Type} [LinearOrder K] (s : Binding C K × (Nat → C)) : SrcOp C → Prop
  | .ins x _ _ => x ∉ s.1.master_items
  | .rem _ => True
  | .chg _ _ => True

instance {C K : Type} [LinearOrder K] (s : Binding C K × (Nat → C)) (op : SrcOp C) :
    Decidable (opPre s op) := by
  cases op with
  | ins x i c => exact inferInstanceAs (Decidable (x ∉ s.1.master_items))
  | rem x => exact inferInstanceAs (Decidable True)
  | chg x c => exact inferInstanceAs (Decidable True)

/-- A source mutation applied to the world: an insert or content change first
updates the item content in the environment (the item acquires or changes its
content), then the corresponding binding operation runs. -/
def stepOp {C K : Type} [LinearOrder K] (s : Binding C K × (Nat → C)) :
    SrcOp C → (Binding C K × (Nat → C)) × List BEvent
  | .ins x i c =>
    let env' := Function.update s.2 x c
    let r := data_item_inserted s.1 env' x i
    ((r.1, env'), r.2)
  | .rem x =>
    let r := data_item_removed s.1 x
    ((r.1, s.2), r.2)
  | .chg x c =>
    let env' := Function.update s.2 x c
    let r := data_item_content_changed s.1 env' x
    ((r.1, env'), r.2)

def runOps {C K : Type} [LinearOrder K] (s : Binding C K × (Nat → C)) :
    List (SrcOp C) → Binding C K × (Nat → C)
  | [] => s
  | op :: ops => runOps (stepOp s op).1 ops

def ValidOps {C K : Type} [LinearOrder K] (s : Binding C K × (Nat → C)) :
    List (SrcOp C) → Prop
  | [] => True
  | op :: ops => opPre s op ∧ ValidOps (stepOp s op).1 ops

instance decValidOps {C K : Type} [LinearOrder K] (s : Binding C K × (Nat → C)) :
    (ops : List (SrcOp C)) → Decidable (ValidOps s ops)
  | [] => isTrue trivial
  | op :: ops =>
    haveI : Decidable (ValidOps (stepOp s op).1 ops) := decValidOps (stepOp s op).1 ops
    inferInstanceAs (Decidable (_ ∧ _))

theorem stepOp_inv {C K : Type} [LinearOrder K] {s : Binding C K × (Nat → C)}
    (hInv : Inv s.1 s.2) (op : SrcOp C) (hpre : opPre s op) :
    Inv (stepOp s op).1.1 (stepOp s op).1.2 := by
  cases op with
  | ins x i c =>
    have hx : x ∉ s.1.master_items := hpre
    exact inserted_inv (inv_update_env_not_mem c hInv hx) hx
  | rem x => exact removed_inv hInv
  | chg x c =>
    exact content_changed_inv hInv fun i hi => Function.update_noteq hi c s.2

theorem runOps_inv {C K : Type} [LinearOrder K] {s : Binding C K × (Nat → C)}
    (hInv : Inv s.1 s.2) :
    ∀ ops : List (SrcOp C), ValidOps s ops → Inv (runOps s ops).1 (runOps s ops).2 := by
  intro ops
  induction ops generalizing s with
  | nil => exact fun _ => hInv
  | cons op rest ih =>
    intro hv
    exact ih (stepOp_inv hInv op hv.1) hv.2

theorem init_inv {C K : Type} [LinearOrder K] (filt : C → Bool) (sk : Option (C → K))
    (sr : Bool) (env : Nat → C) : Inv (DataItemsInContainerBinding filt sk sr) env :=
  ⟨List.nodup_nil, rfl⟩

theorem nodup_pairwise_indexOf {M : List Nat} (hnd : M.Nodup) :
    M.Pairwise fun a b => M.indexOf a < M.indexOf b := by
  rw [List.pairwise_iff_getElem]
  intro i j hi hj hij
  rw [List.indexOf_getElem hnd i hi, List.indexOf_getElem hnd j hj]
  exact hij

theorem pairwise_of_indexOf_lt {R : Nat → Nat → Prop} {l : List Nat} (h : l.Pairwise R)
    {x y : Nat} (hx : x ∈ l) (hy : y ∈ l) (hxy : l.indexOf x < l.indexOf y) : R x y := by
  have hi := List.indexOf_lt_length.mpr hx
  have hj := List.indexOf_lt_length.mpr hy
  have hr := List.pairwise_iff_getElem.mp h (l.indexOf x) (l.indexOf y) hi hj hxy
  rwa [List.getElem_indexOf hi, List.getElem_indexOf hj] at hr

theorem cmpLe_tie {C K : Type} [LinearOrder K] {k : C → K} (sr : Bool) (env : Nat → C)
    (master : List Nat) {x y : Nat} (he : k (env x) = k (env y))
    (h : cmpLe (some k) sr env master x y = true) :
    master.indexOf x ≤ master.indexOf y := by
  cases sr <;>
    simp only [cmpLe, if_true, if_false, Bool.or_eq_true, Bool.and_eq_true,
      decide_eq_true_eq, Bool.false_eq_true, Bool.true_eq_false] at h <;>
    rcases h with h | ⟨_, h⟩
  · exact absurd h (by rw [he]; exact lt_irrefl _)
  · exact h
  · exact absurd h (by rw [he]; exact lt_irrefl _)
  · exact h

theorem deriveOrdered_none {C K : Type} [LinearOrder K] {b : Binding C K} {env : Nat → C}
    (hsk : b.sort_key = none) (hnd : b.master_items.Nodup) :
    deriveOrdered b env = b.master_items.filter fun i => b.filter (env i) := by
  rw [deriveOrdered]
  apply sSort_of_pairwise
  have h1 : (b.master_items.filter fun i => b.filter (env i)).Pairwise
      fun a c => b.master_items.indexOf a < b.master_items.indexOf c :=
    List.Pairwise.sublist (List.filter_sublist b.master_items) (nodup_pairwise_indexOf hnd)
  refine h1.imp ?_
  intro a c hac
  rw [hsk]
  simp only [cmpLe, decide_eq_true_eq]
  exact Nat.le_of_lt hac

theorem deriveOrdered_trivial {C K : Type} [LinearOrder K] {b : Binding C K} {env : Nat → C}
    (hfilt : ∀ c, b.filter c = true) (hsk : b.sort_key = none)
    (hnd : b.master_items.Nodup) :
    deriveOrdered b env = b.master_items := by
  rw [deriveOrdered_none hsk hnd]
  exact List.filter_eq_self.mpr fun a _ => hfilt (env a)

theorem self_eq_take_drop_indexOf {O : List Nat} {x : Nat} (hnd : O.Nodup) (hx : x ∈ O) :
    O = (O.erase x).take (O.indexOf x) ++ x :: (O.erase x).drop (O.indexOf x) := by
  rcases nodup_split_of_mem hx hnd with ⟨T, D, hTD, hxT, hxD, hndTD⟩
  subst hTD
  rw [erase_split hxT, List.indexOf_append_of_not_mem hxT, List.indexOf_cons_self,
    Nat.add_zero, List.take_left, List.drop_left]

/-- C1: for every sequence of insert, remove, and content-changed operations
applied to a binding (each insert introducing a fresh item), at every
observation point the exposed `ordered_items` equals
`sorted(filter(master_items))` under the binding's current filter, sort key
and sort direction: it contains no duplicates, no item failing the filter, and
no item absent from `master_items`. -/
theorem C1_ordered_items_invariant {C K : Type} [LinearOrder K] (filt : C → Bool)
    (sk : Option (C → K)) (sr : Bool) (env₀ : Nat → C) (ops : List (SrcOp C))
    (hvalid : ValidOps (DataItemsInContainerBinding filt sk sr, env₀) ops) :
    (runOps (DataItemsInContainerBinding filt sk sr, env₀) ops).1.ordered_items
        = deriveOrdered (runOps (DataItemsInContainerBinding filt sk sr, env₀) ops).1
            (runOps (DataItemsInContainerBinding filt sk sr, env₀) ops).2 ∧
    (runOps (DataItemsInContainerBinding filt sk sr, env₀) ops).1.ordered_items.Nodup ∧
    ∀ j ∈ (runOps (DataItemsInContainerBinding filt sk sr, env₀) ops).1.ordered_items,
      (runOps (DataItemsInContainerBinding filt sk sr, env₀) ops).1.filter
          ((runOps (DataItemsInContainerBinding filt sk sr, env₀) ops).2 j) = true ∧
        j ∈ (runOps (DataItemsInContainerBinding filt sk sr, env₀) ops).1.master_items := by
  have hInv := runOps_inv (init_inv filt sk sr env₀) ops hvalid
  refine ⟨hInv.2, ordered_nodup hInv, ?_⟩
  intro j hj
  rw [hInv.2, deriveOrdered, mem_sSort, List.mem_filter] at hj
  exact ⟨hj.2, hj.1⟩

/-- C7: for every sequence of valid insertions (and other operations), any two
items whose sort keys compare equal appear in `ordered_items` in their
relative source order (position order in `master_items`): the sort is stable;
and when no `sort_key` is set, `ordered_items` is the source-ordered filtered
list. -/
theorem C7_stable_sort {C K : Type} [LinearOrder K] (filt : C → Bool)
    (sk : Option (C → K)) (sr : Bool) (env₀ : Nat → C) (ops : List (SrcOp C))
    (hvalid : ValidOps (DataItemsInContainerBinding filt sk sr, env₀) ops) :
    (∀ k, (runOps (DataItemsInContainerBinding filt sk sr, env₀) ops).1.sort_key = some k →
      ∀ x ∈ (runOps (DataItemsInContainerBinding filt sk sr, env₀) ops).1.ordered_items,
      ∀ y ∈ (runOps (DataItemsInContainerBinding filt sk sr, env₀) ops).1.ordered_items,
        k ((runOps (DataItemsInContainerBinding filt sk sr, env₀) ops).2 x)
            = k ((runOps (DataItemsInContainerBinding filt sk sr, env₀) ops).2 y) →
        ((runOps (DataItemsInContainerBinding filt sk sr, env₀) ops).1.ordered_items.indexOf x
            < (runOps (DataItemsInContainerBinding filt sk sr, env₀) ops).1.ordered_items.indexOf y ↔
          (runOps (DataItemsInContainerBinding filt sk sr, env₀) ops).1.master_items.indexOf x
            < (runOps (DataItemsInContainerBinding filt sk sr, env₀) ops).1.master_items.indexOf y)) ∧
    ((runOps (DataItemsInContainerBinding filt sk sr, env₀) ops).1.sort_key = none →
      (runOps (DataItemsInContainerBinding filt sk sr, env₀) ops).1.ordered_items
        = (runOps (DataItemsInContainerBinding filt sk sr, env₀) ops).1.master_items.filter
            fun j => (runOps (DataItemsInContainerBinding filt sk sr, env₀) ops).1.filter
              ((runOps (DataItemsInContainerBinding filt sk sr, env₀) ops).2 j)) := by
  have hInv := runOps_inv (init_inv filt sk sr env₀) ops hvalid
  constructor
  · intro k hk x hx y hy he
    have hpw : (runOps (DataItemsInContainerBinding filt sk sr, env₀) ops).1.ordered_items.Pairwise
        (fun a c => cmpLe (runOps (DataItemsInContainerBinding filt sk sr, env₀) ops).1.sort_key
          (runOps (DataItemsInContainerBinding filt sk sr, env₀) ops).1.sort_reverse
          (runOps (DataItemsInContainerBinding filt sk sr, env₀) ops).2
          (runOps (DataItemsInContainerBinding filt sk sr, env₀) ops).1.master_items a c = true) := by
      rw [hInv.2, deriveOrdered]
      exact sSort_pairwise (cmpLe_total _ _ _ _) (cmpLe_trans _ _ _ _)
    have hmem : ∀ j ∈ (runOps (DataItemsInContainerBinding filt sk sr, env₀) ops).1.ordered_items,
        j ∈ (runOps (DataItemsInContainerBinding filt sk sr, env₀) ops).1.master_items := by
      intro j hj
      rw [hInv.2, deriveOrdered, mem_sSort, List.mem_filter] at hj
      exact hj.1
    have hndO := ordered_nodup hInv
    have fwd : ∀ {u v : Nat},
        u ∈ (runOps (DataItemsInContainerBinding filt sk sr, env₀) ops).1.ordered_items →
        v ∈ (runOps (DataItemsInContainerBinding filt sk sr, env₀) ops).1.ordered_items →
        k ((runOps (DataItemsInContainerBinding filt sk sr, env₀) ops).2 u)
            = k ((runOps (DataItemsInContainerBinding filt sk sr, env₀) ops).2 v) →
        (runOps (DataItemsInContainerBinding filt sk sr, env₀) ops).1.ordered_items.indexOf u
            < (runOps (DataItemsInContainerBinding filt sk sr, env₀) ops).1.ordered_items.indexOf v →
        (runOps (DataItemsInContainerBinding filt sk sr, env₀) ops).1.master_items.indexOf u
            < (runOps (DataItemsInContainerBinding filt sk sr, env₀) ops).1.master_items.indexOf v := by
      intro u v hu hv heuv hlt
      have hcmp := pairwise_of_indexOf_lt hpw hu hv hlt
      rw [hk] at hcmp
      have hle := cmpLe_tie _ _ _ heuv hcmp
      have hne : u ≠ v := by
        intro h
        subst h
        exact lt_irrefl _ hlt
      have hnei : (runOps (DataItemsInContainerBinding filt sk sr, env₀) ops).1.master_items.indexOf u
          ≠ (runOps (DataItemsInContainerBinding filt sk sr, env₀) ops).1.master_items.indexOf v :=
        fun h => hne ((List.indexOf_inj (hmem u hu) (hmem v hv)).mp h)
      exact Nat.lt_of_le_of_ne hle hnei
    constructor
    · exact fun h => fwd hx hy he h
    · intro h
      rcases Nat.lt_trichotomy
          ((runOps (DataItemsInContainerBinding filt sk sr, env₀) ops).1.ordered_items.indexOf x)
          ((runOps (DataItemsInContainerBinding filt sk sr, env₀) ops).1.ordered_items.indexOf y)
        with hlt | heq | hgt
      · exact hlt
      · exact absurd ((List.indexOf_inj hx hy).mp heq)
          (fun hxy => by rw [hxy] at h; exact lt_irrefl _ h)
      · exact absurd h (Nat.not_lt.mpr (Nat.le_of_lt (fwd hy hx he.symm hgt)))
  · intro hk
    rw [hInv.2]
    exact deriveOrdered_none hk hInv.1

/-! ### Concrete scenario of the filter-without-sort-key test

Titles are the item contents; the test's filter
`not data_item.title.startswith("D")` is translated as a first-character
check (the titles involved are plain ASCII). -/

def c2Filter : String → Bool := fun t => decide (t.data.head? ≠ some 'D')

def c2Binding : Binding String String := DataItemsInContainerBinding c2Filter none false

def c2Ops : List (SrcOp String) :=
  [SrcOp.ins 0 0 "DEF", SrcOp.ins 1 0 "ABC", SrcOp.ins 2 1 "GHI",
   SrcOp.ins 3 1 "DFG", SrcOp.ins 4 2 "ACD", SrcOp.ins 5 4 "GIJ"]

def c2Run : Binding String String × (Nat → String) :=
  runOps (c2Binding, fun _ => "") c2Ops

/-- C2 (amended): for a binding with no sort key and a filter rejecting titles
starting with "D", inserting items titled DEF, ABC, GHI, DFG, ACD, GIJ at
source indices 0, 0, 1, 1, 2, 4 yields `ordered_items` titled
ABC, ACD, GHI, GIJ: the unfiltered positional result with the "D"-prefixed
titles removed ("GHI" does not start with "D", so it stays). -/
theorem C2_filter_no_sort_scenario :
    c2Run.1.ordered_items.map c2Run.2 = ["ABC", "ACD", "GHI", "GIJ"] ∧
    c2Run.1.master_items.map c2Run.2 = ["ABC", "DFG", "ACD", "GHI", "GIJ", "DEF"] ∧
    c2Run.1.ordered_items.map c2Run.2
      = (["ABC", "DFG", "ACD", "GHI", "GIJ", "DEF"].filter c2Filter) := by
  decide

/-- C2 counterexample to the claim as stated: the scenario does not yield the
three titles ABC, ACD, GIJ; the title GHI passes the filter as well. -/
theorem C2_filter_no_sort_scenario_cex :
    ¬ c2Run.1.ordered_items.map c2Run.2 = ["ABC", "ACD", "GIJ"] := by
  decide

def c1wBinding : Binding Nat Nat :=
  DataItemsInContainerBinding (fun c => decide (c % 2 = 0)) (some fun c => c) false

def c1wOps : List (SrcOp Nat) :=
  [SrcOp.ins 5 0 3, SrcOp.ins 7 0 2, SrcOp.chg 5 4, SrcOp.rem 7, SrcOp.ins 2 1 8,
   SrcOp.chg 2 1, SrcOp.chg 5 6]

theorem C1_ordered_items_invariant_witness :
    ValidOps (c1wBinding, fun _ => 0) c1wOps ∧
    ((runOps (c1wBinding, fun _ => 0) c1wOps).1.ordered_items
        = deriveOrdered (runOps (c1wBinding, fun _ => 0) c1wOps).1
            (runOps (c1wBinding, fun _ => 0) c1wOps).2 ∧
      (runOps (c1wBinding, fun _ => 0) c1wOps).1.ordered_items.Nodup ∧
      ∀ j ∈ (runOps (c1wBinding, fun _ => 0) c1wOps).1.ordered_items,
        (runOps (c1wBinding, fun _ => 0) c1wOps).1.filter
            ((runOps (c1wBinding, fun _ => 0) c1wOps).2 j) = true ∧
          j ∈ (runOps (c1wBinding, fun _ => 0) c1wOps).1.master_items) :=
  ⟨by decide, C1_ordered_items_invariant _ _ _ _ _ (by decide)⟩

theorem C7_stable_sort_witness :
    ValidOps (c1wBinding, fun _ => 0) c1wOps ∧
    ((∀ k, (runOps (c1wBinding, fun _ => 0) c1wOps).1.sort_key = some k →
      ∀ x ∈ (runOps (c1wBinding, fun _ => 0) c1wOps).1.ordered_items,
      ∀ y ∈ (runOps (c1wBinding, fun _ => 0) c1wOps).1.ordered_items,
        k ((runOps (c1wBinding, fun _ => 0) c1wOps).2 x)
            = k ((runOps (c1wBinding, fun _ => 0) c1wOps).2 y) →
        ((runOps (c1wBinding, fun _ => 0) c1wOps).1.ordered_items.indexOf x
            < (runOps (c1wBinding, fun _ => 0) c1wOps).1.ordered_items.indexOf y ↔
          (runOps (c1wBinding, fun _ => 0) c1wOps).1.master_items.indexOf x
            < (runOps (c1wBinding, fun _ => 0) c1wOps).1.master_items.indexOf y)) ∧
    ((runOps (c1wBinding, fun _ => 0) c1wOps).1.sort_key = none →
      (runOps (c1wBinding, fun _ => 0) c1wOps).1.ordered_items
        = (runOps (c1wBinding, fun _ => 0) c1wOps).1.master_items.filter
            fun j => (runOps (c1wBinding, fun _ => 0) c1wOps).1.filter
              ((runOps (c1wBinding, fun _ => 0) c1wOps).2 j))) :=
  ⟨by decide, C7_stable_sort _ _ _ _ _ (by decide)⟩

/-! ### Batched property assignments -/

inductive Setting (C K : Type) where
  | sfilter (f : C → Bool)
  | skey (k : Option (C → K))
  | srev (r : Bool)

def applySetting {C K : Type} [LinearOrder K] (env : Nat → C) (b : Binding C K) :
    Setting C K → Binding C K × List BEvent
  | .sfilter f => set_filter b env f
  | .skey k => set_sort_key b env k
  | .srev r => set_sort_reverse b env r

def applySettings {C K : Type} [LinearOrder K] (env : Nat → C) (b : Binding C K) :
    List (Setting C K) → Binding C K × List BEvent
  | [] => (b, [])
  | st :: rest =>
    let r1 := applySetting env b st
    let r2 := applySettings env r1.1 rest
    (r2.1, r1.2 ++ r2.2)

/-- The last-assigned filter of a run of property assignments. -/
def finalFilter {C K : Type} (f₀ : C → Bool) : List (Setting C K) → C → Bool
  | [] => f₀
  | .sfilter f :: rest => finalFilter f rest
  | _ :: rest => finalFilter f₀ rest

/-- A complete change-batch scope: open the scope, perform the assignments,
close the scope. -/
def changes_scope {C K : Type} [LinearOrder K] (b : Binding C K) (env : Nat → C)
    (ss : List (Setting C K)) : Binding C K × List BEvent :=
  let r1 := applySettings env (begin_changes b) ss
  let r2 := end_changes r1.1 env
  (r2.1, r1.2 ++ r2.2)

theorem applySettings_batched {C K : Type} [LinearOrder K] (env : Nat → C)
    {b : Binding C K} (hcc : b.change_count ≠ 0) (ss : List (Setting C K)) :
    (applySettings env b ss).2 = [] ∧
    (applySettings env b ss).1.change_count = b.change_count ∧
    (applySettings env b ss).1.master_items = b.master_items ∧
    (applySettings env b ss).1.ordered_items = b.ordered_items ∧
    (applySettings env b ss).1.filter = finalFilter b.filter ss ∧
    (applySettings env b ss).1.needs_update = (b.needs_update || !ss.isEmpty) := by
  induction ss generalizing b with
  | nil => simp [applySettings, finalFilter]
  | cons st rest ih =>
    have hstep : ∀ bset : Binding C K, bset.change_count = b.change_count →
        (updateAfterSetting bset env).1 = { bset with needs_update := true } ∧
        (updateAfterSetting bset env).2 = [] := by
      intro bset hb
      rw [updateAfterSetting, if_neg (hb ▸ hcc)]
      exact ⟨rfl, rfl⟩
    cases st with
    | sfilter f =>
      rcases hstep { b with filter := f } rfl with ⟨h1, h2⟩
      have := ih (b := (applySetting env b (Setting.sfilter f)).1)
        (by simp [applySetting, set_filter, h1]; exact hcc)
      simp only [applySettings, applySetting, set_filter] at *
      simp only [h1, h2] at *
      simp [this, finalFilter]
    | skey k =>
      rcases hstep { b with sort_key := k } rfl with ⟨h1, h2⟩
      have := ih (b := (applySetting env b (Setting.skey k)).1)
        (by simp [applySetting, set_sort_key, h1]; exact hcc)
      simp only [applySettings, applySetting, set_sort_key] at *
      simp only [h1, h2] at *
      simp [this, finalFilter]
    | srev r =>
      rcases hstep { b with sort_reverse := r } rfl with ⟨h1, h2⟩
      have := ih (b := (applySetting env b (Setting.srev r)).1)
        (by simp [applySetting, set_sort_reverse, h1]; exact hcc)
      simp only [applySettings, applySetting, set_sort_reverse] at *
      simp only [h1, h2] at *
      simp [this, finalFilter]

/-- C4: when several filter, sort-key, or sort-reverse assignments are
performed while a change-batch scope is open, exactly one recomputation of
`ordered_items` is performed and exactly one change event is emitted, at the
close of the scope, not one per assignment (recomputation and event emission
coincide in this model: a reset event is emitted exactly where `deriveOrdered`
runs); the final membership equals the set accepted by the last-assigned
filter. -/
theorem C4_batched_changes {C K : Type} [LinearOrder K] (b : Binding C K) (env : Nat → C)
    (ss : List (Setting C K)) (hcc : b.change_count = 0) (hss : ss ≠ []) :
    (changes_scope b env ss).2
        = [BEvent.reset (changes_scope b env ss).1.ordered_items] ∧
    (changes_scope b env ss).1.ordered_items = deriveOrdered (changes_scope b env ss).1 env ∧
    (changes_scope b env ss).1.filter = finalFilter b.filter ss ∧
    (∀ j, j ∈ (changes_scope b env ss).1.ordered_items ↔
      j ∈ b.master_items ∧ finalFilter b.filter ss (env j) = true) := by
  have hcc1 : (begin_changes b).change_count ≠ 0 := by
    simp [begin_changes]
  obtain ⟨he, hc, hm, _ho, hf, hn⟩ := applySettings_batched env hcc1 ss
  have hccb : (begin_changes b).change_count = 1 := by
    simp [begin_changes, hcc]
  have hnu : (applySettings env (begin_changes b) ss).1.needs_update = true := by
    rw [hn]
    have : ss.isEmpty = false := by
      cases ss with
      | nil => exact absurd rfl hss
      | cons a t => rfl
    simp [this]
  have hend : end_changes (applySettings env (begin_changes b) ss).1 env
      = ({ (applySettings env (begin_changes b) ss).1 with
            change_count := (applySettings env (begin_changes b) ss).1.change_count - 1,
            ordered_items := deriveOrdered (applySettings env (begin_changes b) ss).1 env,
            needs_update := false },
        [BEvent.reset (deriveOrdered (applySettings env (begin_changes b) ss).1 env)]) := by
    rw [end_changes, if_pos ⟨hc.trans hccb, hnu⟩]
  have hscope : changes_scope b env ss
      = (({ (applySettings env (begin_changes b) ss).1 with
            change_count := (applySettings env (begin_changes b) ss).1.change_count - 1,
            ordered_items := deriveOrdered (applySettings env (begin_changes b) ss).1 env,
            needs_update := false }),
        [BEvent.reset (deriveOrdered (applySettings env (begin_changes b) ss).1 env)]) := by
    rw [changes_scope]
    rw [hend, he]
    rfl
  rw [hscope]
  refine ⟨rfl, rfl, ?_, ?_⟩
  · show (applySettings env (begin_changes b) ss).1.filter = finalFilter b.filter ss
    rw [hf]
    rfl
  · intro j
    show j ∈ deriveOrdered (applySettings env (begin_changes b) ss).1 env ↔ _
    rw [deriveOrdered, mem_sSort, List.mem_filter, hm, hf]
    show j ∈ (begin_changes b).master_items ∧
        finalFilter (begin_changes b).filter ss (env j) = true ↔ _
    exact Iff.rfl

def c4Settings : List (Setting Nat Nat) :=
  [Setting.sfilter (fun c => decide (c = 0)), Setting.srev true,
   Setting.sfilter (fun c => decide (0 < c))]

theorem C4_batched_changes_witness :
    c1wBinding.change_count = 0 ∧ c4Settings ≠ [] ∧
    ((changes_scope c1wBinding (fun _ => 0) c4Settings).2
        = [BEvent.reset (changes_scope c1wBinding (fun _ => 0) c4Settings).1.ordered_items] ∧
    (changes_scope c1wBinding (fun _ => 0) c4Settings).1.ordered_items
        = deriveOrdered (changes_scope c1wBinding (fun _ => 0) c4Settings).1 (fun _ => 0) ∧
    (changes_scope c1wBinding (fun _ => 0) c4Settings).1.filter
        = finalFilter c1wBinding.filter c4Settings ∧
    (∀ j, j ∈ (changes_scope c1wBinding (fun _ => 0) c4Settings).1.ordered_items ↔
      j ∈ c1wBinding.master_items ∧ finalFilter c1wBinding.filter c4Settings 0 = true)) := by
  refine ⟨by decide, by simp [c4Settings], ?_⟩
  exact C4_batched_changes c1wBinding (fun _ => 0) c4Settings (by decide) (by simp [c4Settings])

/-! ### The filter-chain binding

Modelled from the spec: `DataItemsFilterBinding` wraps an upstream binding: on
construction it copies the upstream's current `ordered_items` as its own
`master_items` and derives its own `ordered_items` (default accept-all filter,
no sort key); it then subscribes to the upstream's insert/remove/move/reset
events and applies the section-4.1 re-evaluation logic to each, a move being
handled with remove-plus-insert semantics. -/

def DataItemsFilterBinding {C K : Type} [LinearOrder K] (src : Binding C K)
    (env : Nat → C) : Binding C K :=
  let b : Binding C K :=
    { master_items := src.ordered_items, ordered_items := [],
      filter := fun _ => true, sort_key := none, sort_reverse := false,
      change_count := 0, needs_update := false }
  { b with ordered_items := deriveOrdered b env }

def chainApply {C K : Type} [LinearOrder K] (env : Nat → C) (b : Binding C K) :
    BEvent → Binding C K × List BEvent
  | .inserted x pos => data_item_inserted b env x pos
  | .removed x _ => data_item_removed b x
  | .moved x _ toPos => data_item_inserted (data_item_removed b x).1 env x toPos
  | .reset l =>
    let b' := { b with master_items := l }
    ({ b' with ordered_items := deriveOrdered b' env }, [.reset (deriveOrdered b' env)])

def chainApplyAll {C K : Type} [LinearOrder K] (env : Nat → C) (b : Binding C K) :
    List BEvent → Binding C K
  | [] => b
  | e :: es => chainApplyAll env (chainApply env b e).1 es

/-- The chain binding's synchronization relation with its upstream binding: a
default accept-all filter, no sort key, and both its master list and its
projection mirror the upstream projection. -/
def ChainMirror {C K : Type} [LinearOrder K] (chain src : Binding C K) : Prop :=
  chain.filter = (fun _ => true) ∧ chain.sort_key = none ∧
  chain.master_items = src.ordered_items ∧ chain.ordered_items = src.ordered_items

theorem chain_inv {C K : Type} [LinearOrder K] {chain src : Binding C K} {env : Nat → C}
    (hnd : chain.master_items.Nodup) (hmir : ChainMirror chain src) : Inv chain env := by
  rcases hmir with ⟨hmf, hmk, hmm, hmo⟩
  refine ⟨hnd, ?_⟩
  rw [deriveOrdered_trivial (fun c => by rw [hmf]) hmk hnd, hmo, hmm]

theorem chain_insert_mirror {C K : Type} [LinearOrder K] (chain : Binding C K)
    (env : Nat → C) (x pos : Nat)
    (hmf : chain.filter = (fun _ => true)) (hmk : chain.sort_key = none)
    (hnd : chain.master_items.Nodup) (hx : x ∉ chain.master_items)
    (hord : chain.ordered_items = chain.master_items) :
    (data_item_inserted chain env x pos).1.master_items
        = chain.master_items.take pos ++ x :: chain.master_items.drop pos ∧
    (data_item_inserted chain env x pos).1.ordered_items
        = chain.master_items.take pos ++ x :: chain.master_items.drop pos ∧
    (data_item_inserted chain env x pos).1.filter = chain.filter ∧
    (data_item_inserted chain env x pos).1.sort_key = chain.sort_key := by
  have hpx : chain.filter (env x) = true := by rw [hmf]
  have hInv : Inv chain env := by
    refine ⟨hnd, ?_⟩
    rw [deriveOrdered_trivial (fun c => by rw [hmf]) hmk hnd, hord]
  have hInv' := inserted_inv (i := pos) hInv hx
  have hmaster : (data_item_inserted chain env x pos).1.master_items
      = chain.master_items.take pos ++ x :: chain.master_items.drop pos := by
    simp only [data_item_inserted, if_pos hpx]
  have hfields : (data_item_inserted chain env x pos).1.filter = chain.filter ∧
      (data_item_inserted chain env x pos).1.sort_key = chain.sort_key := by
    simp only [data_item_inserted, if_pos hpx]
    exact ⟨trivial, trivial⟩
  refine ⟨hmaster, ?_, hfields⟩
  rw [hInv'.2, deriveOrdered_trivial (fun c => by rw [hfields.1, hmf])
    (hfields.2.trans hmk) hInv'.1, hmaster]

theorem chain_removed_mirror {C K : Type} [LinearOrder K] {chain : Binding C K} {x : Nat} :
    (data_item_removed chain x).1.master_items = chain.master_items.erase x ∧
    (data_item_removed chain x).1.ordered_items = chain.ordered_items.erase x ∧
    (data_item_removed chain x).1.filter = chain.filter ∧
    (data_item_removed chain x).1.sort_key = chain.sort_key :=
  ⟨rfl, rfl, rfl, rfl⟩

theorem chain_step {C K : Type} [LinearOrder K] {chain src : Binding C K} {env : Nat → C}
    (hsrc : Inv src env) (hmir : ChainMirror chain src) (op : SrcOp C)
    (hpre : opPre (src, env) op) :
    ChainMirror (chainApplyAll (stepOp (src, env) op).1.2 chain (stepOp (src, env) op).2)
      (stepOp (src, env) op).1.1 := by
  obtain ⟨hmf, hmk, hmm, hmo⟩ := hmir
  have hndc : chain.master_items.Nodup := hmm ▸ ordered_nodup hsrc
  have hordc : chain.ordered_items = chain.master_items := hmo.trans hmm.symm
  cases op with
  | ins x i c =>
    have hx : x ∉ src.master_items := hpre
    have hsrc' : Inv src (Function.update env x c) := inv_update_env_not_mem c hsrc hx
    have hxo : x ∉ src.ordered_items := not_mem_ordered hsrc' hx
    by_cases hpx : src.filter (Function.update env x c x) = true
    · obtain ⟨pos, h2, h11o⟩ : ∃ pos, (stepOp (src, env) (SrcOp.ins x i c)).2
            = [BEvent.inserted x pos] ∧
          (stepOp (src, env) (SrcOp.ins x i c)).1.1.ordered_items
            = src.ordered_items.take pos ++ x :: src.ordered_items.drop pos := by
        refine ⟨(sInsert (cmpLe src.sort_key src.sort_reverse (Function.update env x c)
          (src.master_items.take i ++ x :: src.master_items.drop i)) x
            src.ordered_items).indexOf x, ?_, ?_⟩
        · simp only [stepOp, data_item_inserted, if_pos hpx]
        · simp only [stepOp, data_item_inserted, if_pos hpx]
          exact sInsert_eq_take_drop hxo
      rw [h2]
      obtain ⟨hcm, hco, hcf, hck⟩ := chain_insert_mirror
        chain ((stepOp (src, env) (SrcOp.ins x i c)).1.2) x pos
        hmf hmk hndc (hmm ▸ hxo) hordc
      refine ⟨hcf.trans hmf, hck.trans hmk, ?_, ?_⟩
      · show (data_item_inserted chain (stepOp (src, env) (SrcOp.ins x i c)).1.2 x
            pos).1.master_items = (stepOp (src, env) (SrcOp.ins x i c)).1.1.ordered_items
        rw [hcm, hmm, h11o]
      · show (data_item_inserted chain (stepOp (src, env) (SrcOp.ins x i c)).1.2 x
            pos).1.ordered_items = (stepOp (src, env) (SrcOp.ins x i c)).1.1.ordered_items
        rw [hco, hmm, h11o]
    · have h2 : (stepOp (src, env) (SrcOp.ins x i c)).2 = [] := by
        simp only [stepOp, data_item_inserted, if_neg hpx]
      have h11o : (stepOp (src, env) (SrcOp.ins x i c)).1.1.ordered_items
          = src.ordered_items := by
        simp only [stepOp, data_item_inserted, if_neg hpx]
      rw [h2]
      exact ⟨hmf, hmk, hmm.trans h11o.symm, hmo.trans h11o.symm⟩
  | rem x =>
    have h11o : (stepOp (src, env) (SrcOp.rem x)).1.1.ordered_items
        = src.ordered_items.erase x := rfl
    by_cases hxo : x ∈ src.ordered_items
    · have h2 : (stepOp (src, env) (SrcOp.rem x)).2
          = [BEvent.removed x (src.ordered_items.indexOf x)] := by
        simp only [stepOp, data_item_removed, if_pos hxo]
      rw [h2]
      refine ⟨hmf, hmk, ?_, ?_⟩
      · show chain.master_items.erase x
          = (stepOp (src, env) (SrcOp.rem x)).1.1.ordered_items
        rw [hmm, h11o]
      · show chain.ordered_items.erase x
          = (stepOp (src, env) (SrcOp.rem x)).1.1.ordered_items
        rw [hmo, h11o]
    · have h2 : (stepOp (src, env) (SrcOp.rem x)).2 = [] := by
        simp only [stepOp, data_item_removed, if_neg hxo]
      have hxo' : src.ordered_items.erase x = src.ordered_items :=
        List.erase_of_not_mem hxo
      rw [h2]
      refine ⟨hmf, hmk, ?_, ?_⟩
      · show chain.master_items = (stepOp (src, env) (SrcOp.rem x)).1.1.ordered_items
        rw [hmm, h11o, hxo']
      · show chain.ordered_items = (stepOp (src, env) (SrcOp.rem x)).1.1.ordered_items
        rw [hmo, h11o, hxo']
  | chg x c =>
    by_cases hxm : x ∈ src.master_items
    case neg =>
      have h2 : (stepOp (src, env) (SrcOp.chg x c)).2 = [] := by
        simp only [stepOp, data_item_content_changed, if_neg hxm]
      have h11o : (stepOp (src, env) (SrcOp.chg x c)).1.1.ordered_items
          = src.ordered_items := by
        simp only [stepOp, data_item_content_changed, if_neg hxm]
      rw [h2]
      exact ⟨hmf, hmk, hmm.trans h11o.symm, hmo.trans h11o.symm⟩
    case pos =>
      have hndO : src.ordered_items.Nodup := ordered_nodup hsrc
      by_cases hxo : x ∈ src.ordered_items <;>
        by_cases hpx : src.filter (Function.update env x c x) = true
      · -- present and still passing: re-insert at the recomputed position
        have hxe : x ∉ src.ordered_items.erase x :=
          fun h => ((hndO.mem_erase_iff).mp h).1 rfl
        by_cases hpos :
            (sInsert (cmpLe src.sort_key src.sort_reverse (Function.update env x c)
              src.master_items) x (src.ordered_items.erase x)).indexOf x
            = src.ordered_items.indexOf x
        · -- position unchanged: no event and the projection is unchanged
          have h2 : (stepOp (src, env) (SrcOp.chg x c)).2 = [] := by
            simp only [stepOp, data_item_content_changed, if_pos hxm, if_pos hxo,
              if_pos hpx, if_pos hpos]
          have h11o : (stepOp (src, env) (SrcOp.chg x c)).1.1.ordered_items
              = src.ordered_items := by
            simp only [stepOp, data_item_content_changed, if_pos hxm, if_pos hxo,
              if_pos hpx]
            rw [sInsert_eq_take_drop hxe, hpos, ← self_eq_take_drop_indexOf hndO hxo]
          rw [h2]
          exact ⟨hmf, hmk, hmm.trans h11o.symm, hmo.trans h11o.symm⟩
        · -- position changed: one moved event, remove-plus-insert semantics
          obtain ⟨q, h2, h11o⟩ : ∃ q, (stepOp (src, env) (SrcOp.chg x c)).2
                = [BEvent.moved x (src.ordered_items.indexOf x) q] ∧
              (stepOp (src, env) (SrcOp.chg x c)).1.1.ordered_items
                = (src.ordered_items.erase x).take q
                    ++ x :: (src.ordered_items.erase x).drop q := by
            refine ⟨(sInsert (cmpLe src.sort_key src.sort_reverse (Function.update env x c)
              src.master_items) x (src.ordered_items.erase x)).indexOf x, ?_, ?_⟩
            · simp only [stepOp, data_item_content_changed, if_pos hxm, if_pos hxo,
                if_pos hpx, if_neg hpos]
            · simp only [stepOp, data_item_content_changed, if_pos hxm, if_pos hxo,
                if_pos hpx]
              exact sInsert_eq_take_drop hxe
          rw [h2]
          have hcm1 : (data_item_removed chain x).1.master_items
              = src.ordered_items.erase x := by
            show chain.master_items.erase x = src.ordered_items.erase x
            rw [hmm]
          have hxc : x ∉ (data_item_removed chain x).1.master_items := by
            rw [hcm1]
            exact hxe
          have hndc1 : (data_item_removed chain x).1.master_items.Nodup := by
            show (chain.master_items.erase x).Nodup
            exact hndc.erase x
          obtain ⟨hcm, hco, hcf, hck⟩ := chain_insert_mirror
            ((data_item_removed chain x).1) ((stepOp (src, env) (SrcOp.chg x c)).1.2) x q
            hmf hmk hndc1 hxc
            (by show chain.ordered_items.erase x = chain.master_items.erase x
                rw [hordc])
          refine ⟨hcf.trans hmf, hck.trans hmk, ?_, ?_⟩
          · show (data_item_inserted (data_item_removed chain x).1
                (stepOp (src, env) (SrcOp.chg x c)).1.2 x q).1.master_items
              = (stepOp (src, env) (SrcOp.chg x c)).1.1.ordered_items
            rw [hcm, hcm1, h11o]
          · show (data_item_inserted (data_item_removed chain x).1
                (stepOp (src, env) (SrcOp.chg x c)).1.2 x q).1.ordered_items
              = (stepOp (src, env) (SrcOp.chg x c)).1.1.ordered_items
            rw [hco, hcm1, h11o]
      · -- present and now failing: one removed event
        have h2 : (stepOp (src, env) (SrcOp.chg x c)).2
            = [BEvent.removed x (src.ordered_items.indexOf x)] := by
          simp only [stepOp, data_item_content_changed, if_pos hxm, if_pos hxo,
            if_neg hpx]
        have h11o : (stepOp (src, env) (SrcOp.chg x c)).1.1.ordered_items
            = src.ordered_items.erase x := by
          simp only [stepOp, data_item_content_changed, if_pos hxm, if_pos hxo,
            if_neg hpx]
        rw [h2]
        refine ⟨hmf, hmk, ?_, ?_⟩
        · show chain.master_items.erase x
            = (stepOp (src, env) (SrcOp.chg x c)).1.1.ordered_items
          rw [hmm, h11o]
        · show chain.ordered_items.erase x
            = (stepOp (src, env) (SrcOp.chg x c)).1.1.ordered_items
          rw [hmo, h11o]
      · -- absent and now passing: one inserted event
        obtain ⟨pos, h2, h11o⟩ : ∃ pos, (stepOp (src, env) (SrcOp.chg x c)).2
              = [BEvent.inserted x pos] ∧
            (stepOp (src, env) (SrcOp.chg x c)).1.1.ordered_items
              = src.ordered_items.take pos ++ x :: src.ordered_items.drop pos := by
          refine ⟨(sInsert (cmpLe src.sort_key src.sort_reverse (Function.update env x c)
            src.master_items) x src.ordered_items).indexOf x, ?_, ?_⟩
          · simp only [stepOp, data_item_content_changed, if_pos hxm, if_neg hxo,
              if_pos hpx]
          · simp only [stepOp, data_item_content_changed, if_pos hxm, if_neg hxo,
              if_pos hpx]
            exact sInsert_eq_take_drop hxo
        rw [h2]
        obtain ⟨hcm, hco, hcf, hck⟩ := chain_insert_mirror
          chain ((stepOp (src, env) (SrcOp.chg x c)).1.2) x pos
          hmf hmk hndc (hmm ▸ hxo) hordc
        refine ⟨hcf.trans hmf, hck.trans hmk, ?_, ?_⟩
        · show (data_item_inserted chain (stepOp (src, env) (SrcOp.chg x c)).1.2 x
              pos).1.master_items = (stepOp (src, env) (SrcOp.chg x c)).1.1.ordered_items
          rw [hcm, hmm, h11o]
        · show (data_item_inserted chain (stepOp (src, env) (SrcOp.chg x c)).1.2 x
              pos).1.ordered_items = (stepOp (src, env) (SrcOp.chg x c)).1.1.ordered_items
          rw [hco, hmm, h11o]
      · -- absent and still failing: no event, no change
        have h2 : (stepOp (src, env) (SrcOp.chg x c)).2 = [] := by
          simp only [stepOp, data_item_content_changed, if_pos hxm, if_neg hxo,
            if_neg hpx]
        have h11o : (stepOp (src, env) (SrcOp.chg x c)).1.1.ordered_items
            = src.ordered_items := by
          simp only [stepOp, data_item_content_changed, if_pos hxm, if_neg hxo,
            if_neg hpx]
        rw [h2]
        exact ⟨hmf, hmk, hmm.trans h11o.symm, hmo.trans h11o.symm⟩

def chainRun {C K : Type} [LinearOrder K] (chain : Binding C K)
    (s : Binding C K × (Nat → C)) :
    List (SrcOp C) → Binding C K × (Binding C K × (Nat → C))
  | [] => (chain, s)
  | op :: ops =>
    chainRun (chainApplyAll (stepOp s op).1.2 chain (stepOp s op).2) (stepOp s op).1 ops

theorem chainRun_src {C K : Type} [LinearOrder K] (chain : Binding C K)
    (s : Binding C K × (Nat → C)) (ops : List (SrcOp C)) :
    (chainRun chain s ops).2 = runOps s ops := by
  induction ops generalizing chain s with
  | nil => rfl
  | cons op rest ih => exact ih _ _

theorem chainRun_mirror {C K : Type} [LinearOrder K] {chain : Binding C K}
    {s : Binding C K × (Nat → C)} (hsrc : Inv s.1 s.2) (hmir : ChainMirror chain s.1)
    (ops : List (SrcOp C)) (hvalid : ValidOps s ops) :
    ChainMirror (chainRun chain s ops).1 (runOps s ops).1 := by
  induction ops generalizing chain s with
  | nil => exact hmir
  | cons op rest ih =>
    have hmir' := chain_step hsrc hmir op hvalid.1
    exact ih (stepOp_inv hsrc op hvalid.1) hmir' hvalid.2

/-- C5: a filter-chain binding constructed over a populated source binding
(default accept-all filter, no sort key) has `ordered_items` equal to the
source's current `ordered_items` immediately at construction, and after every
subsequent sequence of source insert, remove, or content-changed operations
(each propagated through the emitted insert/remove/move events) its
`ordered_items` again equals the source's `ordered_items`, with no missed or
duplicated updates. -/
theorem C5_filter_binding_follows {C K : Type} [LinearOrder K] (src : Binding C K)
    (env : Nat → C) (hsrc : Inv src env) (ops : List (SrcOp C))
    (hvalid : ValidOps (src, env) ops) :
    (DataItemsFilterBinding src env).ordered_items = src.ordered_items ∧
    (chainRun (DataItemsFilterBinding src env) (src, env) ops).1.ordered_items
      = (runOps (src, env) ops).1.ordered_items := by
  have hnd : src.ordered_items.Nodup := ordered_nodup hsrc
  have hmo : (DataItemsFilterBinding src env).ordered_items = src.ordered_items := by
    show deriveOrdered { master_items := src.ordered_items,
                         ordered_items := ([] : List Nat),
                         filter := (fun _ => true),
                         sort_key := (none : Option (C → K)),
                         sort_reverse := false,
                         change_count := 0,
                         needs_update := false } env
      = src.ordered_items
    exact deriveOrdered_trivial (fun _ => rfl) rfl hnd
  have hmir : ChainMirror (DataItemsFilterBinding src env) src := ⟨rfl, rfl, rfl, hmo⟩
  exact ⟨hmo, (chainRun_mirror hsrc hmir ops hvalid).2.2.2⟩

def c1wRes : Binding Nat Nat × (Nat → Nat) := runOps (c1wBinding, fun _ => 0) c1wOps

def c5wOps : List (SrcOp Nat) := [SrcOp.ins 9 1 5, SrcOp.chg 5 0, SrcOp.rem 2]

theorem C5_filter_binding_follows_witness :
    Inv c1wRes.1 c1wRes.2 ∧ ValidOps (c1wRes.1, c1wRes.2) c5wOps ∧
    ((DataItemsFilterBinding c1wRes.1 c1wRes.2).ordered_items = c1wRes.1.ordered_items ∧
     (chainRun (DataItemsFilterBinding c1wRes.1 c1wRes.2) (c1wRes.1, c1wRes.2)
         c5wOps).1.ordered_items
       = (runOps (c1wRes.1, c1wRes.2) c5wOps).1.ordered_items) :=
  ⟨⟨by decide, by decide⟩, by decide,
    C5_filter_binding_follows c1wRes.1 c1wRes.2 ⟨by decide, by decide⟩ c5wOps (by decide)⟩

/-- C6: for an item of `master_items`, a content-changed notification
re-evaluates the filter with exactly these outcomes: absent and still failing
is a no-op; absent and now passing inserts the item at its sort-correct
position (the resulting projection is again the sorted filtered projection)
and emits one insert event; present and now failing removes it and emits one
remove event; present and still passing emits a moved event if and only if the
recomputed position differs from the old one. -/
theorem C6_content_changed_cases {C K : Type} [LinearOrder K] {b : Binding C K}
    {env env' : Nat → C} {x : Nat} (hInv : Inv b env)
    (hagree : ∀ i, i ≠ x → env' i = env i) (hxm : x ∈ b.master_items) :
    (x ∉ b.ordered_items → b.filter (env' x) = false →
      data_item_content_changed b env' x = (b, [])) ∧
    (x ∉ b.ordered_items → b.filter (env' x) = true →
      (data_item_content_changed b env' x).1.ordered_items
          = deriveOrdered (data_item_content_changed b env' x).1 env' ∧
      x ∈ (data_item_content_changed b env' x).1.ordered_items ∧
      (data_item_content_changed b env' x).2
        = [BEvent.inserted x
            ((data_item_content_changed b env' x).1.ordered_items.indexOf x)]) ∧
    (x ∈ b.ordered_items → b.filter (env' x) = false →
      (data_item_content_changed b env' x).1.ordered_items
          = b.ordered_items.erase x ∧
      (data_item_content_changed b env' x).2
        = [BEvent.removed x (b.ordered_items.indexOf x)]) ∧
    (x ∈ b.ordered_items → b.filter (env' x) = true →
      (data_item_content_changed b env' x).1.ordered_items
          = deriveOrdered (data_item_content_changed b env' x).1 env' ∧
      ((data_item_content_changed b env' x).2 = [] ↔
        (data_item_content_changed b env' x).1.ordered_items.indexOf x
          = b.ordered_items.indexOf x) ∧
      ((data_item_content_changed b env' x).1.ordered_items.indexOf x
          ≠ b.ordered_items.indexOf x →
        (data_item_content_changed b env' x).2
          = [BEvent.moved x (b.ordered_items.indexOf x)
              ((data_item_content_changed b env' x).1.ordered_items.indexOf x)])) := by
  refine ⟨?_, ?_, ?_, ?_⟩
  · intro hxo hpf
    have hneg : ¬ b.filter (env' x) = true := by simp [hpf]
    simp only [data_item_content_changed, if_pos hxm, if_neg hxo, if_neg hneg]
  · intro hxo hpt
    refine ⟨(content_changed_inv hInv hagree).2, ?_, ?_⟩
    · simp only [data_item_content_changed, if_pos hxm, if_neg hxo, if_pos hpt]
      exact mem_sInsert.mpr (Or.inl rfl)
    · simp only [data_item_content_changed, if_pos hxm, if_neg hxo, if_pos hpt]
  · intro hxo hpf
    have hneg : ¬ b.filter (env' x) = true := by simp [hpf]
    constructor
    · simp only [data_item_content_changed, if_pos hxm, if_pos hxo, if_neg hneg]
    · simp only [data_item_content_changed, if_pos hxm, if_pos hxo, if_neg hneg]
  · intro hxo hpt
    have hords : (data_item_content_changed b env' x).1.ordered_items
        = sInsert (cmpLe b.sort_key b.sort_reverse env' b.master_items) x
            (b.ordered_items.erase x) := by
      simp only [data_item_content_changed, if_pos hxm, if_pos hxo, if_pos hpt]
    refine ⟨(content_changed_inv hInv hagree).2, ?_, ?_⟩
    · rw [hords]
      simp only [data_item_content_changed, if_pos hxm, if_pos hxo, if_pos hpt]
      by_cases hpos : (sInsert (cmpLe b.sort_key b.sort_reverse env' b.master_items) x
          (b.ordered_items.erase x)).indexOf x = b.ordered_items.indexOf x
      · simp [hpos]
      · simp [hpos]
    · intro hne
      rw [hords] at hne
      rw [hords]
      simp only [data_item_content_changed, if_pos hxm, if_pos hxo, if_pos hpt,
        if_neg hne]

def c6wEnv : Nat → Nat := Function.update c1wRes.2 5 9

theorem C6_content_changed_cases_witness :
    (Inv c1wRes.1 c1wRes.2 ∧ (∀ i, i ≠ 5 → c6wEnv i = c1wRes.2 i) ∧
      5 ∈ c1wRes.1.master_items) ∧
    ((5 ∉ c1wRes.1.ordered_items → c1wRes.1.filter (c6wEnv 5) = false →
      data_item_content_changed c1wRes.1 c6wEnv 5 = (c1wRes.1, [])) ∧
    (5 ∉ c1wRes.1.ordered_items → c1wRes.1.filter (c6wEnv 5) = true →
      (data_item_content_changed c1wRes.1 c6wEnv 5).1.ordered_items
          = deriveOrdered (data_item_content_changed c1wRes.1 c6wEnv 5).1 c6wEnv ∧
      5 ∈ (data_item_content_changed c1wRes.1 c6wEnv 5).1.ordered_items ∧
      (data_item_content_changed c1wRes.1 c6wEnv 5).2
        = [BEvent.inserted 5
            ((data_item_content_changed c1wRes.1 c6wEnv 5).1.ordered_items.indexOf 5)]) ∧
    (5 ∈ c1wRes.1.ordered_items → c1wRes.1.filter (c6wEnv 5) = false →
      (data_item_content_changed c1wRes.1 c6wEnv 5).1.ordered_items
          = c1wRes.1.ordered_items.erase 5 ∧
      (data_item_content_changed c1wRes.1 c6wEnv 5).2
        = [BEvent.removed 5 (c1wRes.1.ordered_items.indexOf 5)]) ∧
    (5 ∈ c1wRes.1.ordered_items → c1wRes.1.filter (c6wEnv 5) = true →
      (data_item_content_changed c1wRes.1 c6wEnv 5).1.ordered_items
          = deriveOrdered (data_item_content_changed c1wRes.1 c6wEnv 5).1 c6wEnv ∧
      ((data_item_content_changed c1wRes.1 c6wEnv 5).2 = [] ↔
        (data_item_content_changed c1wRes.1 c6wEnv 5).1.ordered_items.indexOf 5
          = c1wRes.1.ordered_items.indexOf 5) ∧
      ((data_item_content_changed c1wRes.1 c6wEnv 5).1.ordered_items.indexOf 5
          ≠ c1wRes.1.ordered_items.indexOf 5 →
        (data_item_content_changed c1wRes.1 c6wEnv 5).2
          = [BEvent.moved 5 (c1wRes.1.ordered_items.indexOf 5)
              ((data_item_content_changed c1wRes.1 c6wEnv 5).1.ordered_items.indexOf 5)]))) :=
  ⟨⟨⟨by decide, by decide⟩, fun i hi => Function.update_noteq hi 9 c1wRes.2, by decide⟩,
    C6_content_changed_cases ⟨by decide, by decide⟩
      (fun i hi => Function.update_noteq hi 9 c1wRes.2) (by decide)⟩

/-! ### Histogram canvas item (from src/nion/swift/HistogramPanel.py)

The mouse-interaction logic of `HistogramCanvasItem`, embedded over exact
rational arithmetic.  The state holds the bound display (an optional record of
`display_range` and `display_limits`), the `pressed` flag, the adornments'
display-limit fractions, the drag start fraction and the canvas width
(`canvas_size[1]`, fixed by layout).  The composition's forwarding to child
canvas items returns False for these children (they do not want mouse
events), so only the item's own handlers are modelled. -/

structure Display where
  display_range : ℚ × ℚ
  display_limits : Option (ℚ × ℚ)
deriving DecidableEq

structure HistogramCanvasItem where
  display : Option Display
  pressed : Bool
  adornments_display_limits : ℚ × ℚ
  start : ℚ
  canvas_width : ℚ
deriving DecidableEq

def mouse_pressed (h : HistogramCanvasItem) (x : ℚ) : HistogramCanvasItem :=
  let s := x / h.canvas_width
  { h with pressed := true, start := s, adornments_display_limits := (s, s) }

def mouse_position_changed (h : HistogramCanvasItem) (x : ℚ) : HistogramCanvasItem :=
  if h.pressed then
    let current := x / h.canvas_width
    { h with adornments_display_limits :=
        (min h.start current, max h.start current) }
  else h

def mouse_released (h : HistogramCanvasItem) (_x : ℚ) : HistogramCanvasItem :=
  let h' := { h with pressed := false }
  let range := h.adornments_display_limits.2 - h.adornments_display_limits.1
  match h.display with
  | some d =>
    if 0 < range ∧ range < 1 then
      let lower_display_limit := d.display_range.1
        + h.adornments_display_limits.1 * (d.display_range.2 - d.display_range.1)
      let upper_display_limit := d.display_range.1
        + h.adornments_display_limits.2 * (d.display_range.2 - d.display_range.1)
      let d' := { d with display_limits := some (lower_display_limit, upper_display_limit) }
      { h' with display := some d' }
    else h'
  | none => h'

def mouse_double_clicked (h : HistogramCanvasItem) (_x : ℚ) : HistogramCanvasItem :=
  let h' := { h with adornments_display_limits := (0, 1) }
  match h.display with
  | some d => { h' with display := some { d with display_limits := none } }
  | none => h'

def c3Display : Display := { display_range := (200, 650), display_limits := none }

def c3Item : HistogramCanvasItem :=
  { display := some c3Display, pressed := false,
    adornments_display_limits := (0, 1), start := 0, canvas_width := 300 }

/-- The drag of the histogram test: press at x = 60 (fraction 0.2 of the
300-wide canvas), move to x = 90 (fraction 0.3), release. -/
def c3Drag : HistogramCanvasItem :=
  mouse_released (mouse_position_changed (mouse_pressed c3Item 60) 90) 90

/-- C3 counterexample to the claim as stated: a drag whose tracked fractions
are 0.2 and 0.3 over the display range [200, 650] does not set
`display_limits` to (290, 320): the upper limit 200 + 0.3 * 450 is 335. -/
theorem C3_drag_to_set_limits_cex :
    c3Drag.display
        ≠ some { display_range := (200, 650), display_limits := some (290, 320) } := by
  norm_num [c3Drag, c3Item, c3Display, mouse_pressed, mouse_position_changed,
    mouse_released, min_def, max_def]

/-- C3 (amended): a mouse drag whose tracked normalized fractions of canvas
width are 0.2 and 0.3, over a display whose `display_range` is [200, 650],
followed by mouse release, sets `display_limits` to
(200 + 0.2 * 450, 200 + 0.3 * 450) = (290, 335): each limit is computed as
`data_min + fraction * (data_max - data_min)`. -/
theorem C3_drag_to_set_limits :
    c3Drag.display
        = some { display_range := (200, 650),
                 display_limits := some (200 + (1/5 : ℚ) * (650 - 200),
                                         200 + (3/10 : ℚ) * (650 - 200)) } ∧
    (200 + (1/5 : ℚ) * (650 - 200), 200 + (3/10 : ℚ) * (650 - 200))
        = ((290 : ℚ), (335 : ℚ)) := by
  constructor
  · norm_num [c3Drag, c3Item, c3Display, mouse_pressed, mouse_position_changed,
      mouse_released, min_def, max_def]
  · norm_num

/-- C8: a mouse double-click resets the bound display's `display_limits` to
none and the adornment display-limit fractions to the full range (0, 1). -/
theorem C8_double_click_resets {h : HistogramCanvasItem} {d : Display} (x : ℚ)
    (hd : h.display = some d) :
    (mouse_double_clicked h x).adornments_display_limits = (0, 1) ∧
    (mouse_double_clicked h x).display = some { d with display_limits := none } := by
  exact ⟨by simp only [mouse_double_clicked, hd], by simp only [mouse_double_clicked, hd]⟩

theorem C8_double_click_resets_witness :
    c3Item.display = some c3Display ∧
    ((mouse_double_clicked c3Item 121).adornments_display_limits = (0, 1) ∧
     (mouse_double_clicked c3Item 121).display
       = some { c3Display with display_limits := none }) :=
  ⟨rfl, C8_double_click_resets 121 rfl⟩

/-- C9: with a bound display, `mouse_released` leaves the display's
`display_limits` unchanged whenever the tracked fraction span is degenerate:
zero (a click with no horizontal drag) or not strictly less than one (a
full-width drag). -/
theorem C9_degenerate_span_no_assignment {h : HistogramCanvasItem} {d : Display} (x : ℚ)
    (hd : h.display = some d)
    (hspan : h.adornments_display_limits.2 - h.adornments_display_limits.1 = 0 ∨
      1 ≤ h.adornments_display_limits.2 - h.adornments_display_limits.1) :
    (mouse_released h x).display = h.display := by
  have hcond : ¬ (0 < h.adornments_display_limits.2 - h.adornments_display_limits.1 ∧
      h.adornments_display_limits.2 - h.adornments_display_limits.1 < 1) := by
    rcases hspan with h0 | h1
    · intro hc
      rw [h0] at hc
      exact lt_irrefl 0 hc.1
    · intro hc
      exact absurd hc.2 (not_lt.mpr h1)
  simp only [mouse_released, hd, if_neg hcond]

theorem C9_degenerate_span_no_assignment_witness :
    (mouse_pressed c3Item 60).display = some c3Display ∧
    ((mouse_pressed c3Item 60).adornments_display_limits.2
        - (mouse_pressed c3Item 60).adornments_display_limits.1 = 0 ∨
      1 ≤ (mouse_pressed c3Item 60).adornments_display_limits.2
        - (mouse_pressed c3Item 60).adornments_display_limits.1) ∧
    (mouse_released (mouse_pressed c3Item 60) 60).display
      = (mouse_pressed c3Item 60).display :=
  ⟨rfl, Or.inl (by norm_num [mouse_pressed, c3Item]),
    C9_degenerate_span_no_assignment 60 rfl
      (Or.inl (by norm_num [mouse_pressed, c3Item]))⟩

theorem mpc_preserves_le {h : HistogramCanvasItem}
    (hle : h.adornments_display_limits.1 ≤ h.adornments_display_limits.2) (y : ℚ) :
    (mouse_position_changed h y).adornments_display_limits.1
      ≤ (mouse_position_changed h y).adornments_display_limits.2 := by
  unfold mouse_position_changed
  by_cases hp : h.pressed = true
  · rw [if_pos hp]
    exact min_le_max
  · rw [if_neg hp]
    exact hle

theorem foldl_mpc_le {h : HistogramCanvasItem}
    (hle : h.adornments_display_limits.1 ≤ h.adornments_display_limits.2)
    (xs : List ℚ) :
    (xs.foldl mouse_position_changed h).adornments_display_limits.1
      ≤ (xs.foldl mouse_position_changed h).adornments_display_limits.2 := by
  induction xs generalizing h with
  | nil => exact hle
  | cons y ys ih => exact ih (mpc_preserves_le hle y)

/-- C10: for every drag sequence (a mouse press followed by any number of
position-changed calls) the adornment display-limit fractions satisfy
lower ≤ upper regardless of drag direction: the press sets both to the start
fraction and every position change while pressed sets them to
(min(start, current), max(start, current)). -/
theorem C10_adornment_fractions_ordered (h : HistogramCanvasItem) (x : ℚ)
    (xs : List ℚ) :
    (mouse_pressed h x).adornments_display_limits
        = (x / h.canvas_width, x / h.canvas_width) ∧
    (∀ (g : HistogramCanvasItem) (y : ℚ), g.pressed = true →
      (mouse_position_changed g y).adornments_display_limits
        = (min g.start (y / g.canvas_width), max g.start (y / g.canvas_width))) ∧
    (xs.foldl mouse_position_changed (mouse_pressed h x)).adornments_display_limits.1
      ≤ (xs.foldl mouse_position_changed (mouse_pressed h x)).adornments_display_limits.2 := by
  refine ⟨rfl, ?_, ?_⟩
  · intro g y hp
    simp only [mouse_position_changed, hp, if_true]
  · exact foldl_mpc_le (le_refl _) xs

theorem C10_adornment_fractions_ordered_witness :
    (mouse_pressed c3Item 60).pressed = true ∧
    ((mouse_pressed c3Item 60).adornments_display_limits
        = (60 / c3Item.canvas_width, 60 / c3Item.canvas_width) ∧
      (mouse_position_changed (mouse_pressed c3Item 60) 90).adornments_display_limits
        = (min (mouse_pressed c3Item 60).start (90 / (mouse_pressed c3Item 60).canvas_width),
           max (mouse_pressed c3Item 60).start (90 / (mouse_pressed c3Item 60).canvas_width)) ∧
      ([90, 30, 200].foldl mouse_position_changed
          (mouse_pressed c3Item 60)).adornments_display_limits.1
        ≤ ([90, 30, 200].foldl mouse_position_changed
            (mouse_pressed c3Item 60)).adornments_display_limits.2) :=
  ⟨rfl,
    (C10_adornment_fractions_ordered c3Item 60 [90, 30, 200]).1,
    (C10_adornment_fractions_ordered c3Item 60 [90, 30, 200]).2.1
      (mouse_pressed c3Item 60) 90 rfl,
    (C10_adornment_fractions_ordered c3Item 60 [90, 30, 200]).2.2⟩

end NionSwift
